import Mathlib

/-!
# gouef/hooks: the event-hook dispatcher

A shallow embedding of `dispatcher.go` (package `hooks`) and the properties of
`AddHook` and `Trigger`.

The package keeps two globals, `hooks : map[string][]HookHandler` and
`mu : sync.Mutex`.  The embedding threads them through a `State`, together
with

* `world`: every piece of program state outside the package that a handler
  can read or write (a handler cannot reach `hooks` or `mu`: both are
  unexported);
* `log`: a ghost record of the handler calls made so far, in call order.

A handler call either returns or panics; a handler that never returns (one
that loops, or that re-enters `AddHook`/`Trigger` and blocks on `mu`) is not
represented.  A call of a nil `HookHandler` panics at once and is represented
by a handler that panics without touching the world.

The interface `Event` is declared outside `dispatcher.go`; its single method
`GetName() string` is taken as the class `Event`.  The call `event.GetName()`
made by `Trigger` either returns the name or panics: it panics on a nil `Event`
and in a method that panics.  The method is taken to read the event only.
-/

namespace Hooks

/-! ## Data model -/

/-- What one handler call does: it returns, or it panics with a value; in both
cases `w` is the world it leaves behind. -/
inductive HandlerResult (σ ε : Type) where
  | ret (w : σ)
  | panic (p : ε) (w : σ)

/-- Go: `type HookHandler func(event interface{})`. -/
abbrev HookHandler (α σ ε : Type) := α → σ → HandlerResult σ ε

/-- Go: the interface `Event`, any value with `GetName() string`.  The call
`event.GetName()` returns the name (`.ok`) or panics with a value (`.error`), as
it does on a nil `Event`. -/
class Event (α : Type) (ε : outParam Type) where
  GetName : α → Except ε String

/-- Ghost record of one handler call: the callee, the argument it received and
whether `mu` was locked at the moment of the call. -/
structure Call (α σ ε : Type) where
  handler : HookHandler α σ ε
  event : α
  locked : Bool

/-- Go: `map[string][]HookHandler`, as a finite partial function; `none` is an
absent key. -/
abbrev HookMap (α σ ε : Type) := String → Option (List (HookHandler α σ ε))

/-- The package globals `hooks` and `mu` (`true` = locked), the rest of the
program state, and the ghost call log. -/
structure State (α σ ε : Type) where
  hooks : HookMap α σ ε
  mu : Bool
  world : σ
  log : List (Call α σ ε)

/-- How a call of `AddHook` or `Trigger` ends. -/
inductive Outcome (α σ ε : Type) where
  | returned (s : State α σ ε)
  | panicked (p : ε) (s : State α σ ε)
  | blocked

/-- Go: `var hooks = make(map[string][]HookHandler)`. -/
def emptyHooks {α σ ε : Type} : HookMap α σ ε := fun _ => none

/-- The package state at program start: empty map, unlocked mutex. -/
def init {α σ ε : Type} (w : σ) : State α σ ε :=
  { hooks := emptyHooks, mu := false, world := w, log := [] }

/-! ## `sync.Mutex` -/

/-- Go: `mu.Lock()`.  On an unlocked mutex it returns with the mutex locked; on
a locked one it does not return (`none`). -/
def Lock (mu : Bool) : Option Bool :=
  if mu then none else some true

/-- Go: `mu.Unlock()`, only ever run here on a mutex the caller has locked. -/
def Unlock (_mu : Bool) : Bool := false

/-! ## Map access -/

/-- Go: the one-result index expression `hooks[k]`: the zero value (a nil
slice) for an absent key. -/
def HookMap.index {α σ ε : Type} (m : HookMap α σ ε) (k : String) :
    List (HookHandler α σ ε) :=
  (m k).getD []

/-- Go: the assignment `hooks[k] = v`. -/
def HookMap.assign {α σ ε : Type} (m : HookMap α σ ε) (k : String)
    (v : List (HookHandler α σ ε)) : HookMap α σ ε :=
  fun k' => if k' = k then some v else m k'

/-! ## `AddHook` -/

/-- Go:
```go
func AddHook(eventName string, handler HookHandler) {
	mu.Lock()
	defer mu.Unlock()
	hooks[eventName] = append(hooks[eventName], handler)
}
```
-/
def AddHook {α σ ε : Type} (s : State α σ ε) (eventName : String)
    (handler : HookHandler α σ ε) : Outcome α σ ε :=
  match Lock s.mu with
  | none => .blocked
  | some m =>
    let s1 := { s with mu := m }
    let s2 := { s1 with
      hooks := s1.hooks.assign eventName (s1.hooks.index eventName ++ [handler]) }
    .returned { s2 with mu := Unlock s2.mu }

/-! ## `Trigger` -/

/-- Go: `for _, handler := range handlers { handler(event) }`.  Each call is
logged, then made on the current world; a panic leaves the loop at once. -/
def rangeHandlers {α σ ε : Type} :
    List (HookHandler α σ ε) → α → State α σ ε → Outcome α σ ε
  | [], _, s => .returned s
  | handler :: rest, event, s =>
    let s1 := { s with log := s.log ++ [Call.mk handler event s.mu] }
    match handler event s1.world with
    | .ret w => rangeHandlers rest event { s1 with world := w }
    | .panic p w => .panicked p { s1 with world := w }

/-- Go: `defer mu.Unlock()`: runs when the function body returns and when a
panic unwinds through it. -/
def deferUnlock {α σ ε : Type} : Outcome α σ ε → Outcome α σ ε
  | .returned s => .returned { s with mu := Unlock s.mu }
  | .panicked p s => .panicked p { s with mu := Unlock s.mu }
  | .blocked => .blocked

/-- Go:
```go
func Trigger(event Event) {
	mu.Lock()
	defer mu.Unlock()

	if handlers, found := hooks[event.GetName()]; found {
		for _, handler := range handlers {
			handler(event)
		}
	}
}
```
-/
def Trigger {α σ ε : Type} [Event α ε] (s : State α σ ε) (event : α) : Outcome α σ ε :=
  match Lock s.mu with
  | none => .blocked
  | some m =>
    let s1 := { s with mu := m }
    deferUnlock <|
      match Event.GetName event with
      | .error p => .panicked p s1
      | .ok name =>
        match s1.hooks name with
        | some handlers => rangeHandlers handlers event s1
        | none => .returned s1

/-! ## Callers -/

/-- The state in which a call ended; `none` for a call that never returns. -/
def Outcome.final {α σ ε : Type} : Outcome α σ ε → Option (State α σ ε)
  | .returned s => some s
  | .panicked _ s => some s
  | .blocked => none

/-- A caller that makes the calls `AddHook(n, h)` of a list one after another. -/
def addHooks {α σ ε : Type} :
    List (String × HookHandler α σ ε) → State α σ ε → Outcome α σ ε
  | [], s => .returned s
  | (eventName, handler) :: rest, s =>
    match AddHook s eventName handler with
    | .returned s1 => addHooks rest s1
    | o => o

/-- The handlers that a list of `AddHook` calls registers under the name `n`,
in call order. -/
def handlersFor {α σ ε : Type} (n : String) (calls : List (String × HookHandler α σ ε)) :
    List (HookHandler α σ ε) :=
  (calls.filter (fun c => decide (c.1 = n))).map Prod.snd

/-- One step of a client of the package: a call of `AddHook`, a call of
`Trigger`, or code of its own that changes the world. -/
inductive Op (α σ ε : Type) where
  | addHook (eventName : String) (handler : HookHandler α σ ε)
  | trigger (event : α)
  | act (f : σ → σ)

/-- Runs one client step. -/
def Op.run {α σ ε : Type} [Event α ε] (s : State α σ ε) : Op α σ ε → Outcome α σ ε
  | .addHook eventName handler => AddHook s eventName handler
  | .trigger event => Trigger s event
  | .act f => .returned { s with world := f s.world }

/-- Runs client steps in order.  A panic that leaves `Trigger` is recovered by
the client, which goes on with its next step; a call that never returns ends
the run (`none`). -/
def runOps {α σ ε : Type} [Event α ε] : List (Op α σ ε) → State α σ ε → Option (State α σ ε)
  | [], s => some s
  | op :: rest, s =>
    match (op.run s).final with
    | some s1 => runOps rest s1
    | none => none

/-- The world after the handlers of a list have been called in turn on `event`
and each has returned; `none` as soon as one of them panics. -/
def runAll {α σ ε : Type} : List (HookHandler α σ ε) → α → σ → Option σ
  | [], _, w => some w
  | handler :: rest, event, w =>
    match handler event w with
    | .ret w1 => runAll rest event w1
    | .panic _ _ => none

/-- The log entries of the calls `handler(event)`, one per handler of a list,
made with `mu` locked. -/
def callsOf {α σ ε : Type} (hs : List (HookHandler α σ ε)) (event : α) :
    List (Call α σ ε) :=
  hs.map (fun h => Call.mk h event true)

/-- The registration a client step makes, if it is a call of `AddHook`. -/
def Op.registration {α σ ε : Type} : Op α σ ε → Option (String × HookHandler α σ ε)
  | .addHook eventName handler => some (eventName, handler)
  | .trigger _ => none
  | .act _ => none

/-- The `AddHook` calls among the steps of a client, in order. -/
def registrations {α σ ε : Type} (ops : List (Op α σ ε)) :
    List (String × HookHandler α σ ε) :=
  ops.filterMap Op.registration

/-- The same outcome with the map of its final state replaced by `hooks`: used to
compare two calls that differ only in the map they started from. -/
def Outcome.withHooks {α σ ε : Type} (hooks : HookMap α σ ε) : Outcome α σ ε → Outcome α σ ε
  | .returned s => .returned { s with hooks := hooks }
  | .panicked p s => .panicked p { s with hooks := hooks }
  | .blocked => .blocked

/-! ## Goroutines

Calls of `AddHook` made from several goroutines.  Every access to `hooks` in
the package is made between `mu.Lock()` and `mu.Unlock()`, so the program has
no data race and its executions are the interleavings of the steps of its
goroutines.  A call of `AddHook` is cut into four steps: `mu.Lock()`; the
evaluation of `append(hooks[eventName], handler)`; the assignment to
`hooks[eventName]`; the deferred `mu.Unlock()`.  The read of the map and the
write to it are separate steps, so that the model itself does not make the
update atomic: only `mu` does.
-/

/-- Where a goroutine stands in its current call of `AddHook`. -/
inductive Pc (α σ ε : Type) where
  | idle
  | locked
  | appended (v : List (HookHandler α σ ε))
  | assigned

/-- Whether the goroutine is inside a call, past `mu.Lock()`. -/
def Pc.busy {α σ ε : Type} : Pc α σ ε → Bool
  | .idle => false
  | .locked => true
  | .appended _ => true
  | .assigned => true

/-- A goroutine: its position and the calls `AddHook(n, h)` it still has to
make, the current one first. -/
structure Goroutine (α σ ε : Type) where
  pc : Pc α σ ε
  todo : List (String × HookHandler α σ ε)

/-- The package globals and the goroutines of the program. -/
structure System (α σ ε : Type) where
  hooks : HookMap α σ ε
  mu : Bool
  goroutines : List (Goroutine α σ ε)

/-- The next step of a goroutine on the globals `hooks` and `mu`; `none` when
it has finished or waits in `mu.Lock()`. -/
def Goroutine.step {α σ ε : Type} (hooks : HookMap α σ ε) (mu : Bool) (g : Goroutine α σ ε) :
    Option (HookMap α σ ε × Bool × Goroutine α σ ε) :=
  match g.todo with
  | [] => none
  | (eventName, handler) :: rest =>
    match g.pc with
    | .idle =>
      match Lock mu with
      | none => none
      | some m => some (hooks, m, { g with pc := .locked })
    | .locked => some (hooks, mu, { g with pc := .appended (hooks.index eventName ++ [handler]) })
    | .appended v => some (hooks.assign eventName v, mu, { g with pc := .assigned })
    | .assigned => some (hooks, Unlock mu, { pc := .idle, todo := rest })

/-- The scheduler gives goroutine `i` a turn: it takes its next step if it can,
and nothing happens otherwise. -/
def System.step {α σ ε : Type} (sys : System α σ ε) (i : Nat) : System α σ ε :=
  match sys.goroutines[i]? with
  | none => sys
  | some g =>
    match g.step sys.hooks sys.mu with
    | none => sys
    | some (hooks, mu, g1) => { hooks := hooks, mu := mu, goroutines := sys.goroutines.set i g1 }

/-- Runs a schedule: the list of the goroutines that get a turn, in order. -/
def runSchedule {α σ ε : Type} : List Nat → System α σ ε → System α σ ε
  | [], sys => sys
  | i :: rest, sys => runSchedule rest (sys.step i)

/-- The program start: one goroutine per list of calls, none inside a call,
`mu` unlocked. -/
def spawn {α σ ε : Type} (hooks : HookMap α σ ε)
    (progs : List (List (String × HookHandler α σ ε))) : System α σ ε :=
  { hooks := hooks, mu := false, goroutines := progs.map (fun p => { pc := .idle, todo := p }) }

/-- Every goroutine has made all its calls. -/
def System.completed {α σ ε : Type} (sys : System α σ ε) : Bool :=
  sys.goroutines.all (fun g => g.todo.isEmpty)

/-- The handlers that the programs of all goroutines register under `n`,
goroutine by goroutine. -/
def registered {α σ ε : Type} (n : String) :
    List (List (String × HookHandler α σ ε)) → List (HookHandler α σ ε)
  | [] => []
  | p :: ps => handlersFor n p ++ registered n ps

/-- The handlers that a goroutine has still to store under `n`. -/
def remaining {α σ ε : Type} (n : String) (g : Goroutine α σ ε) : List (HookHandler α σ ε) :=
  match g.pc with
  | .assigned => handlersFor n g.todo.tail
  | _ => handlersFor n g.todo

/-- The handlers that the goroutines of a list have still to store under `n`. -/
def pending {α σ ε : Type} (n : String) :
    List (Goroutine α σ ε) → List (HookHandler α σ ε)
  | [] => []
  | g :: gs => remaining n g ++ pending n gs

/-- A goroutine inside a call has a current call, and the slice it has built
for the assignment is the stored sequence with its handler appended. -/
def Holding {α σ ε : Type} (hooks : HookMap α σ ε) (g : Goroutine α σ ε) : Prop :=
  g.pc.busy = true →
    ∃ n h rest, g.todo = (n, h) :: rest ∧
      ∀ v, g.pc = .appended v → v = hooks.index n ++ [h]

/-- The mutual-exclusion invariant: the number of goroutines inside a call is
1 when `mu` is locked and 0 when it is not, and each of them is `Holding`. -/
def Exclusive {α σ ε : Type} (sys : System α σ ε) : Prop :=
  sys.goroutines.countP (fun g => g.pc.busy) = (if sys.mu then 1 else 0) ∧
  ∀ g ∈ sys.goroutines, Holding sys.hooks g

/-- The conservation invariant: under every name, the handlers stored and the
handlers still to be stored are together the handlers of `total`, each as many
times. -/
def Conserved {α σ ε : Type} (total : String → List (HookHandler α σ ε))
    (sys : System α σ ε) : Prop :=
  ∀ k, (sys.hooks.index k ++ pending k sys.goroutines).Perm (total k)

/-- The state in which a goroutine calls `Trigger` once the system is at rest:
the globals of the system, a world and a call log. -/
def System.toState {α σ ε : Type} (sys : System α σ ε) (w : σ) (log : List (Call α σ ε)) :
    State α σ ε :=
  { hooks := sys.hooks, mu := sys.mu, world := w, log := log }

/-! ## Fixtures -/

/-- An event that carries its own name. -/
structure NamedEvent where
  name : String

instance : Event NamedEvent String := ⟨fun e => .ok e.name⟩

/-- The events of a program that may pass a nil `Event`: `none` is nil, and the
call of `GetName` on it panics. -/
instance : Event (Option NamedEvent) String :=
  ⟨fun e => match e with
    | none => .error "nil pointer dereference"
    | some ev => .ok ev.name⟩

/-- The world of the fixtures: a journal of lines written by handlers. -/
abbrev Journal := List String

/-- A handler that writes `tag` and the event name to the journal and returns. -/
def recorder (tag : String) : HookHandler NamedEvent Journal String :=
  fun e w => .ret (w ++ [tag ++ "<-" ++ e.name])

/-- A handler that panics with `msg`. -/
def failing (msg : String) : HookHandler NamedEvent Journal String :=
  fun _ w => .panic msg w

/-- A handler that panics on an empty journal and returns on any other; it
writes a line in both cases. -/
def failsOnce : HookHandler NamedEvent Journal String :=
  fun _ w => if w.isEmpty then .panic "first call" (w ++ ["tried"]) else .ret (w ++ ["ok"])

/-- The event named `"X"`. -/
def evX : NamedEvent := ⟨"X"⟩

/-- The event named `"Y"`. -/
def evY : NamedEvent := ⟨"Y"⟩

/-- The initial state of the fixtures. -/
def init0 : State NamedEvent Journal String := init []

/-- A handler, of a program that may pass a nil `Event`, that writes a line to
the journal and returns. -/
def witnessOfCall : HookHandler (Option NamedEvent) Journal String :=
  fun _ w => .ret (w ++ ["called"])

/-- A state of a program that may pass a nil `Event`, with `witnessOfCall`
stored under `"X"`. -/
def stateNil : State (Option NamedEvent) Journal String :=
  { hooks := emptyHooks.assign "X" [witnessOfCall], mu := false, world := [], log := [] }

/-- A state in which `failsOnce` and then `recorder "B"` are stored under `"X"`. -/
def stateFB : State NamedEvent Journal String :=
  { init0 with hooks := init0.hooks.assign "X" [failsOnce, recorder "B"] }

/-- The steps of a client that registers `A` under `"X"`, triggers the event named
`"X"`, registers `failing "boom"` under `"Y"` and `B` under `"X"`. -/
def stepsAB : List (Op NamedEvent Journal String) :=
  [Op.addHook "X" (recorder "A"), Op.trigger evX, Op.addHook "Y" (failing "boom"),
    Op.addHook "X" (recorder "B")]

/-- The programs of two goroutines: the first registers under `"X"` and then
under `"Y"`, the second under `"X"`. -/
def progs2 : List (List (String × HookHandler NamedEvent Journal String)) :=
  [[("X", recorder "A"), ("Y", recorder "C")], [("X", recorder "B")]]

/-- A schedule for two goroutines: the second gets a turn while the first is
inside its first call, and makes its call between the two calls of the first. -/
def sched2 : List Nat :=
  [0, 1, 0, 0, 0, 1, 1, 1, 1, 0, 0, 0, 0]

/-! ## Basic facts -/

section Basic

variable {α σ ε : Type}

/-- `AddHook` called with `mu` unlocked returns; only the map has changed. -/
theorem AddHook_free (s : State α σ ε) (n : String) (h : HookHandler α σ ε)
    (hmu : s.mu = false) :
    AddHook s n h = .returned { s with hooks := s.hooks.assign n (s.hooks.index n ++ [h]) } := by
  cases s with
  | mk hooks mu world log =>
    simp only at hmu
    subst hmu
    simp [AddHook, Lock, Unlock]

theorem assign_same (m : HookMap α σ ε) (k : String) (v : List (HookHandler α σ ε)) :
    m.assign k v k = some v := by
  simp [HookMap.assign]

theorem assign_other (m : HookMap α σ ε) (k k' : String) (v : List (HookHandler α σ ε))
    (hne : k' ≠ k) : m.assign k v k' = m k' := by
  simp [HookMap.assign, hne]

theorem index_assign_same (m : HookMap α σ ε) (k : String) (v : List (HookHandler α σ ε)) :
    (m.assign k v).index k = v := by
  simp [HookMap.index, HookMap.assign]

theorem index_assign_other (m : HookMap α σ ε) (k k' : String) (v : List (HookHandler α σ ε))
    (hne : k' ≠ k) : (m.assign k v).index k' = m.index k' := by
  simp [HookMap.index, HookMap.assign, hne]

theorem index_none (m : HookMap α σ ε) (k : String) (h : m k = none) : m.index k = [] := by
  simp [HookMap.index, h]

theorem index_some (m : HookMap α σ ε) (k : String) (l : List (HookHandler α σ ε))
    (h : m k = some l) : m.index k = l := by
  simp [HookMap.index, h]

/-- The loop over handlers that all return: every one is called, in order. -/
theorem rangeHandlers_of_runAll (hs : List (HookHandler α σ ε)) (e : α) :
    ∀ (s : State α σ ε) (w : σ), runAll hs e s.world = some w →
      rangeHandlers hs e s =
        .returned { s with world := w, log := s.log ++ hs.map (fun h => Call.mk h e s.mu) } := by
  induction hs with
  | nil =>
    intro s w hw
    simp only [runAll, Option.some.injEq] at hw
    subst hw
    simp [rangeHandlers]
  | cons h rest ih =>
    intro s w hw
    simp only [runAll] at hw
    cases hh : h e s.world with
    | ret w1 =>
      rw [hh] at hw
      have hw1 : runAll rest e w1 = some w := by simpa using hw
      have hrest := ih { s with world := w1, log := s.log ++ [Call.mk h e s.mu] } w hw1
      simp only [rangeHandlers, hh]
      simpa using hrest
    | panic p w1 =>
      rw [hh] at hw
      simp at hw

/-- The loop over handlers of which one panics after all earlier ones have
returned: the calls stop with the panicking handler. -/
theorem rangeHandlers_of_panic (pre : List (HookHandler α σ ε)) (h : HookHandler α σ ε)
    (post : List (HookHandler α σ ε)) (e : α) (p : ε) (wi w1 : σ) :
    ∀ (s : State α σ ε), runAll pre e s.world = some wi → h e wi = .panic p w1 →
      rangeHandlers (pre ++ h :: post) e s =
        .panicked p { s with world := w1,
                             log := s.log ++ (pre ++ [h]).map (fun h => Call.mk h e s.mu) } := by
  induction pre with
  | nil =>
    intro s hw hp
    simp only [runAll, Option.some.injEq] at hw
    subst hw
    simp [rangeHandlers, hp]
  | cons g rest ih =>
    intro s hw hp
    simp only [runAll] at hw
    cases hg : g e s.world with
    | ret w2 =>
      rw [hg] at hw
      have hw2 : runAll rest e w2 = some wi := by simpa using hw
      have hrest := ih { s with world := w2, log := s.log ++ [Call.mk g e s.mu] } hw2 hp
      simp only [List.cons_append, rangeHandlers, hg]
      simpa using hrest
    | panic q w2 =>
      rw [hg] at hw
      simp at hw

/-- Either every handler of a list returns, or there is a first one that
panics. -/
theorem runAll_or_panic (hs : List (HookHandler α σ ε)) (e : α) :
    ∀ w : σ, (∃ w1, runAll hs e w = some w1) ∨
      ∃ pre h post wi p w1, hs = pre ++ h :: post ∧ runAll pre e w = some wi ∧
        h e wi = .panic p w1 := by
  induction hs with
  | nil => intro w; exact Or.inl ⟨w, rfl⟩
  | cons g rest ih =>
    intro w
    cases hg : g e w with
    | ret w2 =>
      rcases ih w2 with ⟨w1, hw1⟩ | ⟨pre, h, post, wi, p, w1, hsplit, hpre, hp⟩
      · exact Or.inl ⟨w1, by simp [runAll, hg, hw1]⟩
      · exact Or.inr ⟨g :: pre, h, post, wi, p, w1, by simp [hsplit], by simp [runAll, hg, hpre], hp⟩
    | panic q w2 =>
      exact Or.inr ⟨[], g, rest, w, q, w2, rfl, rfl, hg⟩

theorem handlersFor_cons_same (n : String) (h : HookHandler α σ ε)
    (rest : List (String × HookHandler α σ ε)) :
    handlersFor n ((n, h) :: rest) = h :: handlersFor n rest := by
  simp [handlersFor]

theorem handlersFor_cons_other (k n : String) (h : HookHandler α σ ε)
    (rest : List (String × HookHandler α σ ε)) (hne : k ≠ n) :
    handlersFor k ((n, h) :: rest) = handlersFor k rest := by
  have hnk : ¬ n = k := fun h => hne h.symm
  simp [handlersFor, List.filter_cons, hnk]

/-- What a run of `AddHook` calls leaves in the map, key by key. -/
theorem addHooks_free (calls : List (String × HookHandler α σ ε)) :
    ∀ s : State α σ ε, s.mu = false →
      ∃ s1, addHooks calls s = .returned s1 ∧ s1.mu = false ∧ s1.world = s.world ∧
        s1.log = s.log ∧
        ∀ k, s1.hooks k =
          if (handlersFor k calls).isEmpty then s.hooks k
          else some (s.hooks.index k ++ handlersFor k calls) := by
  induction calls with
  | nil =>
    intro s hmu
    exact ⟨s, rfl, hmu, rfl, rfl, fun k => by simp [handlersFor]⟩
  | cons c rest ih =>
    intro s hmu
    obtain ⟨n, h⟩ := c
    obtain ⟨s1, hrun, hmu1, hw1, hl1, hk1⟩ :=
      ih { s with hooks := s.hooks.assign n (s.hooks.index n ++ [h]) } hmu
    refine ⟨s1, ?_, hmu1, hw1, hl1, ?_⟩
    · simp only [addHooks, AddHook_free s n h hmu]
      exact hrun
    · intro k
      rw [hk1 k]
      by_cases hkn : k = n
      · subst hkn
        rw [handlersFor_cons_same]
        cases hrest : handlersFor k rest with
        | nil => simp [HookMap.assign]
        | cons g gs => simp [HookMap.assign, HookMap.index]
      · rw [handlersFor_cons_other k n h rest hkn]
        simp only [assign_other _ _ _ _ hkn, index_assign_other _ _ _ _ hkn]

/-- No `AddHook` call for `n` among the steps: nothing is registered under `n`. -/
theorem handlersFor_registrations_nil (ops : List (Op α σ ε)) (n : String)
    (hnever : ∀ h, Op.addHook n h ∉ ops) : handlersFor n (registrations ops) = [] := by
  induction ops with
  | nil => simp [registrations, handlersFor]
  | cons op rest ih =>
    have hrest : ∀ h, Op.addHook n h ∉ rest := fun h hin => hnever h (List.mem_cons_of_mem _ hin)
    cases op with
    | addHook m g =>
      have hmn : n ≠ m := by
        intro heq
        subst heq
        exact hnever g (List.mem_cons_self _ _)
      have hreg : registrations (Op.addHook m g :: rest) = (m, g) :: registrations rest := by
        simp [registrations, Op.registration]
      rw [hreg, handlersFor_cons_other n m g _ hmn]
      exact ih hrest
    | trigger e =>
      have hreg : registrations (Op.trigger e :: rest) = registrations rest := by
        simp [registrations, Op.registration]
      rw [hreg]
      exact ih hrest
    | act f =>
      have hreg : registrations (Op.act f :: rest) = registrations rest := by
        simp [registrations, Op.registration]
      rw [hreg]
      exact ih hrest

/-- A list of copies of `a` cut in two: the first part and the cut element are
copies of `a`. -/
theorem replicate_split {β : Type} (k : Nat) (a : β) (pre : List β) (b : β) (post : List β)
    (hsplit : List.replicate k a = pre ++ b :: post) :
    pre ++ [b] = List.replicate (pre.length + 1) a ∧ pre.length + 1 ≤ k := by
  have hlen : k = pre.length + (post.length + 1) := by
    have := congrArg List.length hsplit
    simpa using this
  have hall : ∀ x ∈ pre ++ b :: post, x = a := by
    intro x hx
    rw [← hsplit] at hx
    exact List.eq_of_mem_replicate hx
  constructor
  · rw [List.eq_replicate_iff]
    refine ⟨by simp, ?_⟩
    intro x hx
    apply hall
    simp only [List.mem_append, List.mem_singleton, List.mem_cons, List.not_mem_nil,
      or_false] at hx ⊢
    rcases hx with hx | hx
    · exact Or.inl hx
    · exact Or.inr (Or.inl hx)
  · omega

/-- The handlers registered under `n` by `k` calls `AddHook(n, h)`. -/
theorem handlersFor_replicate (n : String) (h : HookHandler α σ ε) (k : Nat) :
    handlersFor n (List.replicate k (n, h)) = List.replicate k h := by
  induction k with
  | zero => simp [handlersFor]
  | succ k ih => rw [List.replicate_succ, handlersFor_cons_same, ih, List.replicate_succ]

/-- One more handler that returns, after handlers that all return. -/
theorem runAll_snoc (l : List (HookHandler α σ ε)) (h : HookHandler α σ ε) (e : α) (wi w1 : σ) :
    ∀ w : σ, runAll l e w = some wi → h e wi = .ret w1 → runAll (l ++ [h]) e w = some w1 := by
  induction l with
  | nil =>
    intro w hw hh
    simp only [runAll, Option.some.injEq] at hw
    subst hw
    simp [runAll, hh]
  | cons g rest ih =>
    intro w hw hh
    simp only [runAll] at hw
    cases hg : g e w with
    | ret w2 =>
      rw [hg] at hw
      have hrest := ih w2 (by simpa using hw) hh
      simp only [List.cons_append, runAll, hg]
      exact hrest
    | panic q w2 =>
      rw [hg] at hw
      simp at hw

/-- A call of `AddHook` for `n` among the steps registers a handler under `n`. -/
theorem handlersFor_registrations_ne_nil (ops : List (Op α σ ε)) (n : String)
    (h : HookHandler α σ ε) (hin : Op.addHook n h ∈ ops) :
    handlersFor n (registrations ops) ≠ [] := by
  induction ops with
  | nil => simp at hin
  | cons op rest ih =>
    cases op with
    | addHook m g =>
      have hreg : registrations (Op.addHook m g :: rest) = (m, g) :: registrations rest := by
        simp [registrations, Op.registration]
      rw [hreg]
      by_cases hnm : n = m
      · subst hnm
        rw [handlersFor_cons_same]
        exact List.cons_ne_nil _ _
      · rw [handlersFor_cons_other n m g _ hnm]
        apply ih
        rcases List.mem_cons.mp hin with heq | hmem
        · injection heq with h1 _
          exact absurd h1 hnm
        · exact hmem
    | trigger e =>
      have hreg : registrations (Op.trigger e :: rest) = registrations rest := by
        simp [registrations, Op.registration]
      rw [hreg]
      apply ih
      rcases List.mem_cons.mp hin with heq | hmem
      · cases heq
      · exact hmem
    | act f =>
      have hreg : registrations (Op.act f :: rest) = registrations rest := by
        simp [registrations, Op.registration]
      rw [hreg]
      apply ih
      rcases List.mem_cons.mp hin with heq | hmem
      · cases heq
      · exact hmem

/-- Handlers are registered under `n` exactly when some step is a call of
`AddHook` for `n`. -/
theorem handlersFor_registrations_ne_nil_iff (ops : List (Op α σ ε)) (n : String) :
    handlersFor n (registrations ops) ≠ [] ↔ ∃ h, Op.addHook n h ∈ ops := by
  constructor
  · intro hne
    by_contra hno
    exact hne (handlersFor_registrations_nil ops n (fun h hin => hno ⟨h, hin⟩))
  · rintro ⟨h, hin⟩
    exact handlersFor_registrations_ne_nil ops n h hin

/-- Two calls of `AddHook` made one after the other. -/
theorem addHooks_pair (s : State α σ ε) (n m : String) (h1 h2 : HookHandler α σ ε)
    (hmu : s.mu = false) :
    addHooks [(n, h1), (m, h2)] s =
      .returned { s with
        hooks := (s.hooks.assign n (s.hooks.index n ++ [h1])).assign m
          ((s.hooks.assign n (s.hooks.index n ++ [h1])).index m ++ [h2]) } := by
  have hsecond := AddHook_free
    ({ s with hooks := s.hooks.assign n (s.hooks.index n ++ [h1]) } : State α σ ε) m h2 hmu
  simp only [addHooks, AddHook_free s n h1 hmu, hsecond]

/-- Assignments to two different keys can be made in either order. -/
theorem assign_comm (hooks : HookMap α σ ε) (n m : String) (a b : List (HookHandler α σ ε))
    (hne : n ≠ m) : (hooks.assign n a).assign m b = (hooks.assign m b).assign n a := by
  funext k
  simp only [HookMap.assign]
  by_cases hkm : k = m
  · have hkn : k ≠ n := fun h => hne (h.symm.trans hkm)
    simp [hkm, hkn, hne.symm]
  · simp [hkm]

/-- A list of `k` copies cut after its first `j` elements, for `j < k`. -/
theorem replicate_cut {β : Type} (k j : Nat) (a : β) (hj : j < k) :
    List.replicate k a = List.replicate j a ++ a :: List.replicate (k - (j + 1)) a := by
  have hk : k = j + ((k - (j + 1)) + 1) := by omega
  conv_lhs => rw [hk]
  rw [List.replicate_add, List.replicate_succ]

/-- A list of copies with one more copy at the end. -/
theorem replicate_snoc {β : Type} (j : Nat) (a : β) :
    List.replicate j a ++ [a] = List.replicate (j + 1) a := by
  induction j with
  | zero => rfl
  | succ j ih => rw [List.replicate_succ, List.cons_append, ih, ← List.replicate_succ]

variable [Event α ε]

/-- `Trigger` on an event whose `GetName` panics ends with that panic; no
handler is called and nothing else changes. -/
theorem Trigger_nameless (s : State α σ ε) (e : α) (p : ε) (hmu : s.mu = false)
    (hname : Event.GetName e = .error p) : Trigger s e = .panicked p s := by
  cases s with
  | mk hooks mu world log =>
    simp only at hmu
    subst hmu
    simp [Trigger, Lock, Unlock, deferUnlock, hname]

/-- `Trigger` on a name that is not a key of the map changes nothing. -/
theorem Trigger_absent (s : State α σ ε) (e : α) (n : String) (hmu : s.mu = false)
    (hname : Event.GetName e = .ok n) (habs : s.hooks n = none) :
    Trigger s e = .returned s := by
  cases s with
  | mk hooks mu world log =>
    simp only at hmu habs
    subst hmu
    simp [Trigger, Lock, Unlock, deferUnlock, hname, habs]

/-- `Trigger` when every handler stored under the name returns. -/
theorem Trigger_of_runAll (s : State α σ ε) (e : α) (n : String)
    (hs : List (HookHandler α σ ε)) (w : σ)
    (hmu : s.mu = false) (hname : Event.GetName e = .ok n) (hfound : s.hooks n = some hs)
    (hw : runAll hs e s.world = some w) :
    Trigger s e = .returned { s with world := w, log := s.log ++ callsOf hs e } := by
  cases s with
  | mk hooks mu world log =>
    simp only at hmu hfound hw
    subst hmu
    have hloop := rangeHandlers_of_runAll hs e
      { hooks := hooks, mu := true, world := world, log := log } w hw
    simp [Trigger, Lock, hname, hfound, hloop, deferUnlock, Unlock, callsOf]

/-- `Trigger` when a handler stored under the name panics after the ones
before it have returned. -/
theorem Trigger_of_panic (s : State α σ ε) (e : α) (n : String)
    (pre : List (HookHandler α σ ε)) (h : HookHandler α σ ε)
    (post : List (HookHandler α σ ε)) (p : ε) (wi w1 : σ)
    (hmu : s.mu = false) (hname : Event.GetName e = .ok n)
    (hfound : s.hooks n = some (pre ++ h :: post))
    (hpre : runAll pre e s.world = some wi) (hp : h e wi = .panic p w1) :
    Trigger s e =
      .panicked p { s with world := w1, log := s.log ++ callsOf (pre ++ [h]) e } := by
  cases s with
  | mk hooks mu world log =>
    simp only at hmu hfound hpre
    subst hmu
    have hloop := rangeHandlers_of_panic pre h post e p wi w1
      { hooks := hooks, mu := true, world := world, log := log } hpre hp
    simp [Trigger, Lock, hname, hfound, hloop, deferUnlock, Unlock, callsOf]

/-- The four ways a call of `Trigger` made with `mu` unlocked can go. -/
theorem Trigger_cases (s : State α σ ε) (e : α) (hmu : s.mu = false) :
    (∃ p, Event.GetName e = .error p ∧ Trigger s e = .panicked p s) ∨
    (∃ n, Event.GetName e = .ok n ∧ s.hooks n = none ∧ Trigger s e = .returned s) ∨
    (∃ n hs w, Event.GetName e = .ok n ∧ s.hooks n = some hs ∧
      runAll hs e s.world = some w ∧
      Trigger s e = .returned { s with world := w, log := s.log ++ callsOf hs e }) ∨
    (∃ n pre h post wi p w1, Event.GetName e = .ok n ∧
      s.hooks n = some (pre ++ h :: post) ∧
      runAll pre e s.world = some wi ∧ h e wi = .panic p w1 ∧
      Trigger s e =
        .panicked p { s with world := w1, log := s.log ++ callsOf (pre ++ [h]) e }) := by
  cases hname : (Event.GetName e : Except ε String) with
  | error p => exact Or.inl ⟨p, rfl, Trigger_nameless s e p hmu hname⟩
  | ok n =>
    cases hk : s.hooks n with
    | none => exact Or.inr (Or.inl ⟨n, rfl, hk, Trigger_absent s e n hmu hname hk⟩)
    | some hs =>
      rcases runAll_or_panic hs e s.world with
        ⟨w, hw⟩ | ⟨pre, h, post, wi, p, w1, hsplit, hpre, hp⟩
      · exact Or.inr (Or.inr (Or.inl
          ⟨n, hs, w, rfl, hk, hw, Trigger_of_runAll s e n hs w hmu hname hk hw⟩))
      · subst hsplit
        exact Or.inr (Or.inr (Or.inr ⟨n, pre, h, post, wi, p, w1, rfl, hk, hpre, hp,
          Trigger_of_panic s e n pre h post p wi w1 hmu hname hk hpre hp⟩))

/-- `Trigger` on an event named `n`, when every handler of the sequence stored
under `n` (none for an absent key) returns: each is called on the event, in
order, on the world the one before it left. -/
theorem Trigger_index_returns (s : State α σ ε) (e : α) (n : String) (w : σ)
    (hmu : s.mu = false) (hname : Event.GetName e = .ok n)
    (hw : runAll (s.hooks.index n) e s.world = some w) :
    Trigger s e =
      .returned { s with world := w, log := s.log ++ callsOf (s.hooks.index n) e } := by
  cases hk : s.hooks n with
  | none =>
    rw [index_none _ _ hk] at hw ⊢
    simp only [runAll, Option.some.injEq] at hw
    subst hw
    rw [Trigger_absent s e n hmu hname hk]
    simp [callsOf]
  | some hs =>
    rw [index_some _ _ hs hk] at hw ⊢
    exact Trigger_of_runAll s e n hs w hmu hname hk hw

/-- `Trigger` on an event named `n`, when a handler of the sequence stored
under `n` panics after the ones before it have returned: the calls stop with
it, and its panic is the panic of `Trigger`. -/
theorem Trigger_index_panics (s : State α σ ε) (e : α) (n : String)
    (pre : List (HookHandler α σ ε)) (h : HookHandler α σ ε)
    (post : List (HookHandler α σ ε)) (p : ε) (wi w1 : σ)
    (hmu : s.mu = false) (hname : Event.GetName e = .ok n)
    (hsplit : s.hooks.index n = pre ++ h :: post)
    (hpre : runAll pre e s.world = some wi) (hp : h e wi = .panic p w1) :
    Trigger s e =
      .panicked p { s with world := w1, log := s.log ++ callsOf (pre ++ [h]) e } := by
  cases hk : s.hooks n with
  | none =>
    rw [index_none _ _ hk] at hsplit
    cases pre <;> cases hsplit
  | some hs =>
    rw [index_some _ _ hs hk] at hsplit
    subst hsplit
    exact Trigger_of_panic s e n pre h post p wi w1 hmu hname hk hpre hp

/-- A call of `Trigger` made with `mu` unlocked ends, with the map as it was
and `mu` unlocked again. -/
theorem Trigger_frame (s : State α σ ε) (e : α) (hmu : s.mu = false) :
    ∃ s1, (Trigger s e).final = some s1 ∧ s1.hooks = s.hooks ∧ s1.mu = false := by
  rcases Trigger_cases s e hmu with
    ⟨p, _, ht⟩ | ⟨n, _, _, ht⟩ | ⟨n, hs, w, _, _, _, ht⟩ |
    ⟨n, pre, h, post, wi, p, w1, _, _, _, _, ht⟩
  · exact ⟨s, by rw [ht]; rfl, rfl, hmu⟩
  · exact ⟨s, by rw [ht]; rfl, rfl, hmu⟩
  · exact ⟨{ s with world := w, log := s.log ++ callsOf hs e }, by rw [ht]; rfl, rfl, hmu⟩
  · exact ⟨{ s with world := w1, log := s.log ++ callsOf (pre ++ [h]) e }, by rw [ht]; rfl,
      rfl, hmu⟩

/-- What a run of client steps leaves in the map, key by key: the handlers its
`AddHook` calls registered, appended in call order; `mu` is unlocked again. -/
theorem runOps_free (ops : List (Op α σ ε)) :
    ∀ s : State α σ ε, s.mu = false →
      ∃ s1, runOps ops s = some s1 ∧ s1.mu = false ∧
        ∀ k, s1.hooks k =
          if (handlersFor k (registrations ops)).isEmpty then s.hooks k
          else some (s.hooks.index k ++ handlersFor k (registrations ops)) := by
  induction ops with
  | nil =>
    intro s hmu
    exact ⟨s, rfl, hmu, fun k => by simp [registrations, handlersFor]⟩
  | cons op rest ih =>
    intro s hmu
    cases op with
    | addHook n h =>
      obtain ⟨s1, hrun, hmu1, hk1⟩ :=
        ih { s with hooks := s.hooks.assign n (s.hooks.index n ++ [h]) } hmu
      refine ⟨s1, ?_, hmu1, ?_⟩
      · simp only [runOps, Op.run, AddHook_free s n h hmu, Outcome.final]
        exact hrun
      · intro k
        rw [hk1 k]
        have hreg : registrations (Op.addHook n h :: rest) = (n, h) :: registrations rest := by
          simp [registrations, Op.registration]
        rw [hreg]
        by_cases hkn : k = n
        · subst hkn
          rw [handlersFor_cons_same]
          cases hrest : handlersFor k (registrations rest) with
          | nil => simp [HookMap.assign]
          | cons g gs => simp [HookMap.assign, HookMap.index]
        · rw [handlersFor_cons_other k n h _ hkn]
          simp only [assign_other _ _ _ _ hkn, index_assign_other _ _ _ _ hkn]
    | trigger e =>
      obtain ⟨s0, hfin, hhooks, hmu0⟩ := Trigger_frame s e hmu
      obtain ⟨s1, hrun, hmu1, hk1⟩ := ih s0 hmu0
      refine ⟨s1, ?_, hmu1, ?_⟩
      · simp only [runOps, Op.run, hfin]
        exact hrun
      · intro k
        have hreg : registrations (Op.trigger e :: rest) = registrations rest := by
          simp [registrations, Op.registration]
        rw [hreg, hk1 k, hhooks]
    | act f =>
      obtain ⟨s1, hrun, hmu1, hk1⟩ := ih { s with world := f s.world } hmu
      refine ⟨s1, ?_, hmu1, ?_⟩
      · simp only [runOps, Op.run, Outcome.final]
        exact hrun
      · intro k
        have hreg : registrations (Op.act f :: rest) = registrations rest := by
          simp [registrations, Op.registration]
        rw [hreg, hk1 k]

/-- A call of `Trigger` made with `mu` unlocked ends, with the map as it was and
`mu` unlocked; the handler calls it has made are on the event itself and, when
the event has a name, are in order an initial part of the sequence stored under
that name, all of it when the call returns normally. -/
theorem Trigger_log (s : State α σ ε) (e : α) (hmu : s.mu = false) :
    ∃ s1 invoked, (Trigger s e).final = some s1 ∧ s1.hooks = s.hooks ∧ s1.mu = false ∧
      s1.log = s.log ++ callsOf invoked e ∧
      ∀ n, Event.GetName e = .ok n →
        ∃ rest, s.hooks.index n = invoked ++ rest ∧ (Trigger s e = .returned s1 → rest = []) := by
  rcases Trigger_cases s e hmu with
    ⟨p, hname, ht⟩ | ⟨n, hname, hk, ht⟩ | ⟨n, hs, w, hname, hk, _, ht⟩ |
    ⟨n, pre, h, post, wi, p, w1, hname, hk, _, _, ht⟩
  · refine ⟨s, [], by rw [ht]; rfl, rfl, hmu, by simp [callsOf], ?_⟩
    intro m hm
    rw [hname] at hm
    cases hm
  · refine ⟨s, [], by rw [ht]; rfl, rfl, hmu, by simp [callsOf], ?_⟩
    intro m hm
    rw [hname] at hm
    injection hm with hm
    subst hm
    exact ⟨[], by simp [HookMap.index, hk], fun _ => rfl⟩
  · refine ⟨{ s with world := w, log := s.log ++ callsOf hs e }, hs, by rw [ht]; rfl, rfl,
      hmu, rfl, ?_⟩
    intro m hm
    rw [hname] at hm
    injection hm with hm
    subst hm
    exact ⟨[], by simp [HookMap.index, hk], fun _ => rfl⟩
  · refine ⟨{ s with world := w1, log := s.log ++ callsOf (pre ++ [h]) e }, pre ++ [h],
      by rw [ht]; rfl, rfl, hmu, rfl, ?_⟩
    intro m hm
    rw [hname] at hm
    injection hm with hm
    subst hm
    refine ⟨post, by simp [HookMap.index, hk], ?_⟩
    intro hret
    rw [ht] at hret
    cases hret

/-- `AddHook` and `Trigger` called with `mu` locked do not get past
`mu.Lock()`. -/
theorem blocked_of_locked (s : State α σ ε) (n : String) (h : HookHandler α σ ε) (e : α)
    (hmu : s.mu = true) : AddHook s n h = .blocked ∧ Trigger s e = .blocked := by
  simp [AddHook, Trigger, Lock, hmu]

/-- `Trigger` reads the map at the name of its event only: from two states that
differ in the map alone and agree at that name, the two calls end alike. -/
theorem Trigger_congr (s : State α σ ε) (hooks1 : HookMap α σ ε) (e : α) (hmu : s.mu = false)
    (hsame : ∀ n, Event.GetName e = .ok n → hooks1 n = s.hooks n) :
    Trigger { s with hooks := hooks1 } e = (Trigger s e).withHooks hooks1 := by
  rcases Trigger_cases s e hmu with
    ⟨p, hname, ht⟩ | ⟨n, hname, hk, ht⟩ | ⟨n, hs, w, hname, hk, hw, ht⟩ |
    ⟨n, pre, h, post, wi, p, w1, hname, hk, hpre, hp, ht⟩
  · rw [ht, Trigger_nameless { s with hooks := hooks1 } e p hmu hname]
    rfl
  · rw [ht, Trigger_absent { s with hooks := hooks1 } e n hmu hname
      (by rw [← hk]; exact hsame n hname)]
    rfl
  · rw [ht, Trigger_of_runAll { s with hooks := hooks1 } e n hs w hmu hname
      (by rw [← hk]; exact hsame n hname) hw]
    rfl
  · rw [ht, Trigger_of_panic { s with hooks := hooks1 } e n pre h post p wi w1 hmu hname
      (by rw [← hk]; exact hsame n hname) hpre hp]
    rfl

/-- A state reached from the initial one holds under each name the handlers
registered under it, and no key without a handler. -/
theorem runOps_init (ops : List (Op α σ ε)) (w0 : σ) :
    ∃ s, runOps ops (init w0) = some s ∧ s.mu = false ∧
      ∀ k, s.hooks k =
        if (handlersFor k (registrations ops)).isEmpty then none
        else some (handlersFor k (registrations ops)) := by
  obtain ⟨s, hrun, hmu, hk⟩ := runOps_free ops (init w0 : State α σ ε) rfl
  refine ⟨s, hrun, hmu, fun k => ?_⟩
  rw [hk k]
  rfl

end Basic

/-! ## Goroutines: mutual exclusion and conservation of registrations -/

section Interleaving

variable {α σ ε : Type}

/-- An element found at index `i` cuts the list in two around it, and `set`
replaces it in place. -/
theorem getElem?_split {β : Type} (l : List β) :
    ∀ (i : Nat) (x : β), l[i]? = some x →
      ∃ A B, l = A ++ x :: B ∧ ∀ y, l.set i y = A ++ y :: B := by
  induction l with
  | nil => intro i x h; simp at h
  | cons a rest ih =>
    intro i x h
    cases i with
    | zero =>
      simp only [List.getElem?_cons_zero, Option.some.injEq] at h
      subst h
      exact ⟨[], rest, rfl, fun y => rfl⟩
    | succ i =>
      simp only [List.getElem?_cons_succ] at h
      obtain ⟨A, B, hsplit, hset⟩ := ih i x h
      exact ⟨a :: A, B, by rw [hsplit]; rfl, fun y => by rw [List.set_cons_succ, hset y]; rfl⟩

theorem pending_append (n : String) (A B : List (Goroutine α σ ε)) :
    pending n (A ++ B) = pending n A ++ pending n B := by
  induction A with
  | nil => rfl
  | cons g gs ih => simp [pending, ih]

/-- Goroutines that are not inside a call and have no call left have nothing
left to store. -/
theorem pending_of_done (n : String) (gs : List (Goroutine α σ ε))
    (hdone : ∀ g ∈ gs, g.todo = []) : pending n gs = [] := by
  induction gs with
  | nil => rfl
  | cons g rest ih =>
    have hg : g.todo = [] := hdone g (List.mem_cons_self _ _)
    have hrest := ih (fun x hx => hdone x (List.mem_cons_of_mem _ hx))
    have hrem : remaining n g = [] := by
      unfold remaining
      cases g.pc <;> simp [hg, handlersFor]
    simp [pending, hrem, hrest]

/-- At program start the handlers still to be stored are all those of the
programs. -/
theorem pending_spawn (n : String) (progs : List (List (String × HookHandler α σ ε))) :
    pending n (progs.map (fun p => ({ pc := .idle, todo := p } : Goroutine α σ ε)))
      = registered n progs := by
  induction progs with
  | nil => rfl
  | cons p ps ih => simp [pending, registered, remaining, ih]

/-- What one step of a goroutine does: it enters a call only when `mu` is
unlocked; afterwards `mu` is locked exactly when the goroutine is inside a
call; and a handler leaves the goroutine only to be appended to the sequence
stored under its name. -/
theorem Goroutine.step_spec (hooks : HookMap α σ ε) (mu : Bool) (g : Goroutine α σ ε)
    (hooks1 : HookMap α σ ε) (mu1 : Bool) (g1 : Goroutine α σ ε)
    (hstep : g.step hooks mu = some (hooks1, mu1, g1)) (hhold : Holding hooks g)
    (hbusy : g.pc.busy = true → mu = true) :
    (g.pc.busy = false → mu = false) ∧ mu1 = g1.pc.busy ∧ Holding hooks1 g1 ∧
      ∀ k, ∃ moved, hooks1.index k = hooks.index k ++ moved ∧
        remaining k g = moved ++ remaining k g1 := by
  obtain ⟨pc, todo⟩ := g
  cases todo with
  | nil => simp [Goroutine.step] at hstep
  | cons c rest =>
    obtain ⟨n, h⟩ := c
    cases pc with
    | idle =>
      cases mu with
      | true => simp [Goroutine.step, Lock] at hstep
      | false =>
        simp only [Goroutine.step, Lock, Bool.false_eq_true, if_false, Option.some.injEq,
          Prod.mk.injEq] at hstep
        obtain ⟨hh, hm, hg⟩ := hstep
        subst hh; subst hm; subst hg
        refine ⟨fun _ => rfl, rfl, ?_, fun k => ⟨[], by simp, by simp [remaining]⟩⟩
        intro _
        exact ⟨n, h, rest, rfl, fun v hv => by cases hv⟩
    | locked =>
      simp only [Goroutine.step, Option.some.injEq, Prod.mk.injEq] at hstep
      obtain ⟨hh, hm, hg⟩ := hstep
      subst hh; subst hm; subst hg
      refine ⟨fun hb => (by cases hb), hbusy rfl, ?_, fun k => ⟨[], by simp, by simp [remaining]⟩⟩
      intro _
      refine ⟨n, h, rest, rfl, fun v hv => ?_⟩
      injection hv with hv
      exact hv.symm
    | appended v =>
      simp only [Goroutine.step, Option.some.injEq, Prod.mk.injEq] at hstep
      obtain ⟨hh, hm, hg⟩ := hstep
      subst hh; subst hm; subst hg
      obtain ⟨n1, h1, rest1, htodo, hv⟩ := hhold rfl
      simp only [List.cons.injEq, Prod.mk.injEq] at htodo
      obtain ⟨⟨hn, hh⟩, _⟩ := htodo
      subst hn; subst hh
      have hvv := hv v rfl
      subst hvv
      refine ⟨fun hb => (by cases hb), hbusy rfl, ?_, ?_⟩
      · intro _
        exact ⟨n, h, rest, rfl, fun v hv => by cases hv⟩
      · intro k
        by_cases hkn : k = n
        · subst hkn
          exact ⟨[h], index_assign_same _ _ _, by simp [remaining, handlersFor_cons_same]⟩
        · exact ⟨[], by rw [index_assign_other _ _ _ _ hkn, List.append_nil],
            by simp [remaining, handlersFor_cons_other k n h rest hkn]⟩
    | assigned =>
      simp only [Goroutine.step, Option.some.injEq, Prod.mk.injEq] at hstep
      obtain ⟨hh, hm, hg⟩ := hstep
      subst hh; subst hm; subst hg
      refine ⟨fun hb => (by cases hb), rfl, ?_, fun k => ⟨[], by simp, by simp [remaining]⟩⟩
      intro hb
      cases hb

/-- A turn of the scheduler keeps mutual exclusion and loses no registration. -/
theorem System.step_inv (total : String → List (HookHandler α σ ε)) (sys : System α σ ε)
    (i : Nat) (hex : Exclusive sys) (hcons : Conserved total sys) :
    Exclusive (sys.step i) ∧ Conserved total (sys.step i) := by
  cases hgi : sys.goroutines[i]? with
  | none =>
    simp only [System.step, hgi]
    exact ⟨hex, hcons⟩
  | some g =>
    cases hst : g.step sys.hooks sys.mu with
    | none =>
      simp only [System.step, hgi, hst]
      exact ⟨hex, hcons⟩
    | some r =>
      obtain ⟨hooks1, mu1, g1⟩ := r
      simp only [System.step, hgi, hst]
      obtain ⟨A, B, hsplit, hset⟩ := getElem?_split _ i g hgi
      obtain ⟨hcount, hhold⟩ := hex
      rw [hsplit, List.countP_append, List.countP_cons] at hcount
      have hbusy : g.pc.busy = true → sys.mu = true := by
        intro hb
        cases hm : sys.mu with
        | true => rfl
        | false =>
          rw [hm] at hcount
          simp only [hb, if_true, Bool.false_eq_true, if_false] at hcount
          omega
      have hgmem : g ∈ sys.goroutines := by rw [hsplit]; simp
      obtain ⟨hidle, hmu1, hhold1, hmoved⟩ :=
        Goroutine.step_spec sys.hooks sys.mu g hooks1 mu1 g1 hst (hhold g hgmem) hbusy
      have hothers : List.countP (fun g => g.pc.busy) A = 0 ∧
          List.countP (fun g => g.pc.busy) B = 0 := by
        cases hb : g.pc.busy with
        | false =>
          rw [hidle hb] at hcount
          simp only [hb, Bool.false_eq_true, if_false] at hcount
          omega
        | true =>
          rw [hbusy hb] at hcount
          simp only [hb, if_true] at hcount
          omega
      obtain ⟨hA, hB⟩ := hothers
      refine ⟨⟨?_, ?_⟩, ?_⟩
      · show List.countP (fun g => g.pc.busy) (sys.goroutines.set i g1) = if mu1 then 1 else 0
        rw [hset g1, List.countP_append, List.countP_cons, hA, hB, hmu1]
        cases g1.pc.busy <;> simp
      · intro x hx
        change x ∈ sys.goroutines.set i g1 at hx
        rw [hset g1] at hx
        simp only [List.mem_append, List.mem_cons] at hx
        rcases hx with hx | hx | hx
        · intro hb
          exact absurd hb (List.countP_eq_zero.mp hA x hx)
        · rw [hx]; exact hhold1
        · intro hb
          exact absurd hb (List.countP_eq_zero.mp hB x hx)
      · intro k
        obtain ⟨moved, hidx, hrem⟩ := hmoved k
        have hold := hcons k
        rw [hsplit, pending_append] at hold
        simp only [pending] at hold
        show (hooks1.index k ++ pending k (sys.goroutines.set i g1)).Perm (total k)
        rw [hset g1, pending_append]
        simp only [pending]
        rw [hidx]
        rw [hrem] at hold
        refine List.Perm.trans ?_ hold
        simp only [List.append_assoc]
        apply List.Perm.append_left
        have hswap : (moved ++ pending k A).Perm (pending k A ++ moved) := List.perm_append_comm
        have hmid := List.Perm.append_right (remaining k g1 ++ pending k B) hswap
        simpa only [List.append_assoc] using hmid

/-- Every schedule keeps mutual exclusion and loses no registration. -/
theorem runSchedule_inv (total : String → List (HookHandler α σ ε)) (sched : List Nat) :
    ∀ sys : System α σ ε, Exclusive sys → Conserved total sys →
      Exclusive (runSchedule sched sys) ∧ Conserved total (runSchedule sched sys) := by
  induction sched with
  | nil => intro sys hex hcons; exact ⟨hex, hcons⟩
  | cons i rest ih =>
    intro sys hex hcons
    obtain ⟨hex1, hcons1⟩ := System.step_inv total sys i hex hcons
    exact ih (sys.step i) hex1 hcons1

/-- The invariants hold at program start. -/
theorem spawn_inv (hooks : HookMap α σ ε) (progs : List (List (String × HookHandler α σ ε))) :
    Exclusive (spawn hooks progs) ∧
      Conserved (fun k => hooks.index k ++ registered k progs) (spawn hooks progs) := by
  refine ⟨⟨?_, ?_⟩, ?_⟩
  · show List.countP _ (progs.map _) = 0
    rw [List.countP_eq_zero]
    intro g hg
    simp only [List.mem_map] at hg
    obtain ⟨p, _, hp⟩ := hg
    rw [← hp]
    simp [Pc.busy]
  · intro g hg hb
    change g ∈ progs.map _ at hg
    simp only [List.mem_map] at hg
    obtain ⟨p, _, hp⟩ := hg
    rw [← hp] at hb
    simp [Pc.busy] at hb
  · intro k
    show (hooks.index k ++ pending k (progs.map _)).Perm _
    rw [pending_spawn]

/-- Once every goroutine has made all its calls, `mu` is unlocked and nothing
is left to store. -/
theorem completed_rest (sys : System α σ ε) (hex : Exclusive sys)
    (hdone : sys.completed = true) :
    sys.mu = false ∧ ∀ k, pending k sys.goroutines = [] := by
  have htodo : ∀ g ∈ sys.goroutines, g.todo = [] := by
    intro g hg
    have hall := List.all_eq_true.mp hdone g hg
    simpa using hall
  refine ⟨?_, fun k => pending_of_done k _ htodo⟩
  obtain ⟨hcount, hhold⟩ := hex
  have hzero : List.countP (fun g => g.pc.busy) sys.goroutines = 0 := by
    rw [List.countP_eq_zero]
    intro g hg hb
    obtain ⟨n, h, rest, hcur, _⟩ := hhold g hg hb
    rw [htodo g hg] at hcur
    cases hcur
  rw [hzero] at hcount
  cases hm : sys.mu with
  | false => rfl
  | true => rw [hm] at hcount; simp at hcount

/-- A goroutine that runs alone makes the call `AddHook(n, h)` in four steps,
and leaves the globals as `AddHook` does. -/
theorem runSchedule_alone (s : State α σ ε) (n : String) (h : HookHandler α σ ε)
    (hmu : s.mu = false) :
    ∃ s1, AddHook s n h = .returned s1 ∧
      runSchedule [0, 0, 0, 0] (spawn s.hooks [[(n, h)]]) =
        { hooks := s1.hooks, mu := s1.mu, goroutines := [{ pc := .idle, todo := [] }] } := by
  refine ⟨_, AddHook_free s n h hmu, ?_⟩
  simp [runSchedule, spawn, System.step, Goroutine.step, Lock, Unlock, hmu]

end Interleaving

/-! ## Claims -/

section Claims

/-- C1, as stated, fails: with the handlers `failing "boom"` and `recorder "B"`
registered in that order under `"X"` in the initial state, `Trigger` on the
event named `"X"` calls `failing "boom"` only; the log does not grow by the two
registered handlers. -/
theorem C1_counterexample :
    init0.mu = false ∧ init0.hooks "X" = none ∧ Event.GetName evX = .ok "X" ∧
    ∃ s1 s2, addHooks [("X", failing "boom"), ("X", recorder "B")] init0 = .returned s1 ∧
      (Trigger s1 evX).final = some s2 ∧
      s2.log = s1.log ++ callsOf [failing "boom"] evX ∧
      s2.log ≠ s1.log ++
        callsOf (handlersFor "X" [("X", failing "boom"), ("X", recorder "B")]) evX := by
  refine ⟨rfl, rfl, rfl, _, _, rfl, rfl, rfl, ?_⟩
  intro h
  have hlen := congrArg List.length h
  simp [handlersFor, callsOf] at hlen

/-- C1 (amended): in a state with no handlers for `n`, after the calls
`AddHook` of `regs` (those for `n` register `h1, ..., hk`, in that order, among
calls for other names), `Trigger` on an event named `n` calls `h1, ..., hk` in
that order, each once, and no other handler, provided each of them returns; if
one of them panics, it calls the handlers up to and including the first one
that panics, in that order, each once, and no other handler. -/
theorem C1_trigger_calls_registered_in_order {α σ ε : Type} [Event α ε] (s : State α σ ε)
    (n : String) (regs : List (String × HookHandler α σ ε)) (e : α)
    (hmu : s.mu = false) (habs : s.hooks n = none) (hname : Event.GetName e = .ok n) :
    ∃ s1, addHooks regs s = .returned s1 ∧
      (∀ w, runAll (handlersFor n regs) e s1.world = some w →
        Trigger s1 e =
          .returned { s1 with world := w, log := s1.log ++ callsOf (handlersFor n regs) e }) ∧
      (∀ pre h post wi p w1, handlersFor n regs = pre ++ h :: post →
        runAll pre e s1.world = some wi → h e wi = .panic p w1 →
        Trigger s1 e =
          .panicked p { s1 with world := w1, log := s1.log ++ callsOf (pre ++ [h]) e }) := by
  obtain ⟨s1, hrun, hmu1, _, _, hk⟩ := addHooks_free regs s hmu
  have hkn := hk n
  rw [habs, index_none _ _ habs, List.nil_append] at hkn
  have hidx : s1.hooks.index n = handlersFor n regs := by
    cases hhs : handlersFor n regs with
    | nil => rw [hhs] at hkn; simp [HookMap.index, hkn]
    | cons g gs => rw [hhs] at hkn; simp [HookMap.index, hkn]
  refine ⟨s1, hrun, ?_, ?_⟩
  · intro w hw
    rw [← hidx] at hw ⊢
    exact Trigger_index_returns s1 e n w hmu1 hname hw
  · intro pre h post wi p w1 hsplit hpre hp
    rw [← hidx] at hsplit
    exact Trigger_index_panics s1 e n pre h post p wi w1 hmu1 hname hsplit hpre hp

/-- C1, at the scenario of the specification: `A` then `B` registered for
`"X"`, with a registration for `"Y"` in between. -/
theorem C1_trigger_calls_registered_in_order_witness :
    ∃ s1, addHooks [("X", recorder "A"), ("Y", failing "boom"), ("X", recorder "B")] init0
        = .returned s1 ∧
      (∀ w, runAll (handlersFor "X"
            [("X", recorder "A"), ("Y", failing "boom"), ("X", recorder "B")]) evX s1.world
          = some w →
        Trigger s1 evX =
          .returned { s1 with world := w, log := s1.log ++ callsOf (handlersFor "X"
            [("X", recorder "A"), ("Y", failing "boom"), ("X", recorder "B")]) evX }) ∧
      (∀ pre h post wi p w1, handlersFor "X"
            [("X", recorder "A"), ("Y", failing "boom"), ("X", recorder "B")]
          = pre ++ h :: post →
        runAll pre evX s1.world = some wi → h evX wi = .panic p w1 →
        Trigger s1 evX =
          .panicked p { s1 with world := w1, log := s1.log ++ callsOf (pre ++ [h]) evX }) :=
  C1_trigger_calls_registered_in_order init0 "X"
    [("X", recorder "A"), ("Y", failing "boom"), ("X", recorder "B")] evX rfl rfl rfl

/-- C2: after any client steps from the initial state among which there is no
call of `AddHook` for the name of `e`, `Trigger` on `e` returns normally and
leaves the whole state as it was: map, mutex, world, and call log (no handler is
called). -/
theorem C2_trigger_unknown_name_is_noop {α σ ε : Type} [Event α ε] (ops : List (Op α σ ε))
    (w0 : σ) (e : α) (n : String) (hname : Event.GetName e = .ok n)
    (hnever : ∀ h, Op.addHook n h ∉ ops) :
    ∃ s, runOps ops (init w0) = some s ∧ s.hooks n = none ∧
      Trigger s e = .returned s := by
  obtain ⟨s, hrun, hmu, hk⟩ := runOps_free ops (init w0 : State α σ ε) rfl
  have hkey : s.hooks n = none := by
    rw [hk, handlersFor_registrations_nil ops _ hnever]
    rfl
  exact ⟨s, hrun, hkey, Trigger_absent s e n hmu hname hkey⟩

/-- C2, at the scenario of the specification: a handler registered for `"X"`
and triggered, then `Trigger` on the event named `"Unknown"`. -/
theorem C2_trigger_unknown_name_is_noop_witness :
    ∃ s, runOps [Op.addHook "X" (recorder "A"), Op.trigger evX] (init []) = some s ∧
      s.hooks "Unknown" = none ∧
      Trigger s (NamedEvent.mk "Unknown") = .returned s :=
  C2_trigger_unknown_name_is_noop [Op.addHook "X" (recorder "A"), Op.trigger evX] []
    (NamedEvent.mk "Unknown") "Unknown" rfl (by
      intro h hin
      simp at hin)

/-- C3: a call of `AddHook(n, h)` returns, and the sequence stored under `n`
afterwards is the sequence stored before (empty when `n` was absent) with `h`
appended; it is `[h]` when `n` was absent. -/
theorem C3_addHook_appends {α σ ε : Type} (s : State α σ ε) (n : String)
    (h : HookHandler α σ ε) (hmu : s.mu = false) :
    ∃ s1, AddHook s n h = .returned s1 ∧
      s1.hooks n = some (s.hooks.index n ++ [h]) ∧
      (∀ l, s.hooks n = some l → s1.hooks n = some (l ++ [h])) ∧
      (s.hooks n = none → s1.hooks n = some [h]) := by
  refine ⟨_, AddHook_free s n h hmu, assign_same _ _ _, ?_, ?_⟩
  · intro l hl
    simp [HookMap.assign, HookMap.index, hl]
  · intro hnone
    simp [HookMap.assign, HookMap.index, hnone]

/-- C3, at the initial state. -/
theorem C3_addHook_appends_witness :
    ∃ s1, AddHook init0 "User::create" (recorder "A") = .returned s1 ∧
      s1.hooks "User::create" = some (init0.hooks.index "User::create" ++ [recorder "A"]) ∧
      (∀ l, init0.hooks "User::create" = some l →
        s1.hooks "User::create" = some (l ++ [recorder "A"])) ∧
      (init0.hooks "User::create" = none → s1.hooks "User::create" = some [recorder "A"]) :=
  C3_addHook_appends init0 "User::create" (recorder "A") rfl

/-- C4: with `h` the only handler registered under `n`, `Trigger` on an event
`e` named `n` calls `h` once, on `e` itself: the world it leaves is the world
that `h` applied to `e` leaves, it returns when `h` returns and panics with the
value of `h` when `h` panics, and the log grows by the one call `h(e)`.  In
every state, the handlers `Trigger(e1)` calls are applied to `e1`, and every
call it logs has `e1` as its argument. -/
theorem C4_handler_receives_event {α σ ε : Type} [Event α ε] (s : State α σ ε) (n : String)
    (regs : List (String × HookHandler α σ ε)) (h : HookHandler α σ ε) (e : α)
    (hmu : s.mu = false) (habs : s.hooks n = none) (honce : handlersFor n regs = [h])
    (hname : Event.GetName e = .ok n) :
    (∃ s1, addHooks regs s = .returned s1 ∧
      (∀ w, h e s1.world = .ret w →
        Trigger s1 e =
          .returned { s1 with world := w, log := s1.log ++ [Call.mk h e true] }) ∧
      (∀ p w, h e s1.world = .panic p w →
        Trigger s1 e =
          .panicked p { s1 with world := w, log := s1.log ++ [Call.mk h e true] })) ∧
    (∀ (t : State α σ ε) (e1 : α) (m : String), t.mu = false → Event.GetName e1 = .ok m →
      (∀ w, runAll (t.hooks.index m) e1 t.world = some w →
        Trigger t e1 =
          .returned { t with world := w, log := t.log ++ callsOf (t.hooks.index m) e1 }) ∧
      (∀ pre g post wi p w1, t.hooks.index m = pre ++ g :: post →
        runAll pre e1 t.world = some wi → g e1 wi = .panic p w1 →
        Trigger t e1 =
          .panicked p { t with world := w1, log := t.log ++ callsOf (pre ++ [g]) e1 })) ∧
    (∀ (t : State α σ ε) (e1 : α), t.mu = false →
      ∃ t2 calls, (Trigger t e1).final = some t2 ∧ t2.log = t.log ++ calls ∧
        ∀ c ∈ calls, c.event = e1) := by
  refine ⟨?_, ?_, ?_⟩
  · obtain ⟨s1, hrun, hmu1, _, _, hk⟩ := addHooks_free regs s hmu
    have hkn := hk n
    rw [honce, index_none _ _ habs] at hkn
    simp only [List.isEmpty_cons, Bool.false_eq_true, if_false, List.nil_append] at hkn
    refine ⟨s1, hrun, ?_, ?_⟩
    · intro w hh
      have hw : runAll [h] e s1.world = some w := by simp [runAll, hh]
      rw [Trigger_of_runAll s1 e n [h] w hmu1 hname hkn hw]
      rfl
    · intro p w hh
      rw [Trigger_of_panic s1 e n [] h [] p s1.world w hmu1 hname hkn rfl hh]
      rfl
  · intro t e1 m ht hm
    exact ⟨fun w hw => Trigger_index_returns t e1 m w ht hm hw,
      fun pre g post wi p w1 hsplit hpre hp =>
        Trigger_index_panics t e1 m pre g post p wi w1 ht hm hsplit hpre hp⟩
  · intro t e1 ht
    obtain ⟨t2, invoked, hfin, _, _, hlog, _⟩ := Trigger_log t e1 ht
    refine ⟨t2, callsOf invoked e1, hfin, hlog, ?_⟩
    intro c hc
    simp only [callsOf, List.mem_map] at hc
    obtain ⟨g, _, hg⟩ := hc
    rw [← hg]

/-- C4, at the scenario of the test `TestDispatcher`: one handler registered
for `"User::create"`, then `Trigger` on an event of that name. -/
theorem C4_handler_receives_event_witness :
    (∃ s1, addHooks [("User::create", recorder "OnUserCreated")] init0 = .returned s1 ∧
      (∀ w, recorder "OnUserCreated" (NamedEvent.mk "User::create") s1.world = .ret w →
        Trigger s1 (NamedEvent.mk "User::create") =
          .returned { s1 with
            world := w
            log := (s1.log ++
              [Call.mk (recorder "OnUserCreated") (NamedEvent.mk "User::create") true]) }) ∧
      (∀ p w, recorder "OnUserCreated" (NamedEvent.mk "User::create") s1.world = .panic p w →
        Trigger s1 (NamedEvent.mk "User::create") =
          .panicked p { s1 with
            world := w
            log := (s1.log ++
              [Call.mk (recorder "OnUserCreated") (NamedEvent.mk "User::create") true]) })) ∧
    (∀ (t : State NamedEvent Journal String) (e1 : NamedEvent) (m : String), t.mu = false →
      Event.GetName e1 = .ok m →
      (∀ w, runAll (t.hooks.index m) e1 t.world = some w →
        Trigger t e1 =
          .returned { t with world := w, log := t.log ++ callsOf (t.hooks.index m) e1 }) ∧
      (∀ pre g post wi p w1, t.hooks.index m = pre ++ g :: post →
        runAll pre e1 t.world = some wi → g e1 wi = .panic p w1 →
        Trigger t e1 =
          .panicked p { t with world := w1, log := t.log ++ callsOf (pre ++ [g]) e1 })) ∧
    (∀ (t : State NamedEvent Journal String) (e1 : NamedEvent), t.mu = false →
      ∃ t2 calls, (Trigger t e1).final = some t2 ∧ t2.log = t.log ++ calls ∧
        ∀ c ∈ calls, c.event = e1) :=
  C4_handler_receives_event init0 "User::create" [("User::create", recorder "OnUserCreated")]
    (recorder "OnUserCreated") (NamedEvent.mk "User::create") rfl rfl rfl rfl

/-- C5, as stated, fails in its last part: in a state with a handler stored
under `"X"`, `Trigger` on a nil `Event` panics in `event.GetName()`, before any
lookup: it ends with that panic, the state is as before and the log is empty,
so no handler was called and none failed. -/
theorem C5_counterexample :
    stateNil.mu = false ∧ stateNil.hooks "X" = some [witnessOfCall] ∧
    Event.GetName (none : Option NamedEvent) = .error "nil pointer dereference" ∧
    Trigger stateNil none = .panicked "nil pointer dereference" stateNil ∧
    stateNil.log = [] ∧ stateNil.world = [] := by
  refine ⟨rfl, rfl, rfl, rfl, rfl, rfl⟩

/-- C5 (amended): when the sequence stored under the name of `e` is
`pre ++ h :: post`, the handlers of `pre` all return on `e` (leaving the world
`wi`) and `h` then panics with `p`, `Trigger(e)` ends with the panic `p` itself,
having called the handlers of `pre` and then `h`, each once, and none of `post`;
the map is as before and the world is the one `h` left.  `Trigger` ends with a
panic `q` only in two ways: `event.GetName()` panicked with `q`, and then no
handler was called and nothing changed; or the last handler it called panicked
with `q`, as above. -/
theorem C5_first_failure_propagates {α σ ε : Type} [Event α ε] (s : State α σ ε) (e : α)
    (hmu : s.mu = false) :
    (∀ n pre h post wi p w1, Event.GetName e = .ok n →
      s.hooks n = some (pre ++ h :: post) →
      runAll pre e s.world = some wi → h e wi = .panic p w1 →
      Trigger s e =
        .panicked p { s with world := w1, log := s.log ++ callsOf (pre ++ [h]) e }) ∧
    (∀ q s2, Trigger s e = .panicked q s2 →
      (Event.GetName e = .error q ∧ s2 = s) ∨
      ∃ n pre h post wi w1, Event.GetName e = .ok n ∧
        s.hooks n = some (pre ++ h :: post) ∧
        runAll pre e s.world = some wi ∧ h e wi = .panic q w1 ∧
        s2 = { s with world := w1, log := s.log ++ callsOf (pre ++ [h]) e }) ∧
    (∀ p, Event.GetName e = .error p → Trigger s e = .panicked p s) := by
  refine ⟨?_, ?_, ?_⟩
  · intro n pre h post wi p w1 hname hfound hpre hp
    exact Trigger_of_panic s e n pre h post p wi w1 hmu hname hfound hpre hp
  · intro q s2 hq
    rcases Trigger_cases s e hmu with
      ⟨p, hname, ht⟩ | ⟨n, _, _, ht⟩ | ⟨n, hs, w, _, _, _, ht⟩ |
      ⟨n, pre, h, post, wi, p, w1, hname, hk, hpre, hp, ht⟩
    · rw [ht] at hq
      injection hq with hpq hs2
      subst hpq
      subst hs2
      exact Or.inl ⟨hname, rfl⟩
    · rw [ht] at hq; cases hq
    · rw [ht] at hq; cases hq
    · rw [ht] at hq
      injection hq with hpq hs2
      subst hpq
      subst hs2
      exact Or.inr ⟨n, pre, h, post, wi, w1, hname, hk, hpre, hp, rfl⟩
  · intro p hname
    exact Trigger_nameless s e p hmu hname

/-- C5, with `A`, `failing "boom"`, `B` registered under `"X"`: `Trigger` ends
with the panic `"boom"` after the calls of `A` and of the failing handler. -/
theorem C5_first_failure_propagates_witness :
    ∃ s1, addHooks [("X", recorder "A"), ("X", failing "boom"), ("X", recorder "B")] init0
        = .returned s1 ∧
      Trigger s1 evX = .panicked "boom"
        { s1 with log := s1.log ++ callsOf ([recorder "A"] ++ [failing "boom"]) evX,
                  world := ["A<-X"] } :=
  ⟨_, rfl, (C5_first_failure_propagates _ evX rfl).1 "X" [recorder "A"] (failing "boom")
    [recorder "B"] ["A<-X"] "boom" ["A<-X"] rfl rfl rfl rfl⟩

/-- C6, as stated, fails in its last part: with `failsOnce` and `recorder "B"`
stored under `"X"`, a first `Trigger` on the event named `"X"` calls `failsOnce`
only (it panics on the empty journal) and leaves the map as it was; a second
`Trigger` on the same event calls `failsOnce` and then `recorder "B"`.  The two
calls of `Trigger` do not invoke the same handlers. -/
theorem C6_counterexample :
    stateFB.mu = false ∧
    ∃ s1 s2, (Trigger stateFB evX).final = some s1 ∧ s1.hooks = stateFB.hooks ∧
      s1.log = stateFB.log ++ callsOf [failsOnce] evX ∧
      (Trigger s1 evX).final = some s2 ∧ s2.hooks = stateFB.hooks ∧
      s2.log = s1.log ++ callsOf [failsOnce, recorder "B"] evX ∧
      Trigger stateFB evX = .panicked "first call" s1 ∧ s1.world = ["tried"] ∧
      Trigger s1 evX = .returned s2 ∧ s2.world = ["tried", "ok", "B<-X"] ∧
      callsOf [failsOnce] evX ≠ callsOf [failsOnce, recorder "B"] evX := by
  refine ⟨rfl, _, _, rfl, rfl, rfl, rfl, rfl, rfl, rfl, rfl, rfl, rfl, ?_⟩
  intro h
  have hlen := congrArg List.length h
  simp [callsOf] at hlen

/-- C6 (amended): a call of `Trigger(e)` ends, normally or with a panic, in a
state whose map is the map it started with, and a second `Trigger(e)` from
there again ends with that same map.  Both calls go through the same stored
sequence, the one the first state holds under the name of `e`: each calls its
handlers on `e` in order, all of them when each returns, and otherwise up to and
including the first one that panics, and ends with that panic. -/
theorem C6_trigger_never_mutates_map {α σ ε : Type} [Event α ε] (s : State α σ ε) (e : α)
    (hmu : s.mu = false) :
    ∃ s1, (Trigger s e).final = some s1 ∧ s1.hooks = s.hooks ∧
      (∃ s2, (Trigger s1 e).final = some s2 ∧ s2.hooks = s.hooks) ∧
      (∀ p, Event.GetName e = .error p →
        Trigger s e = .panicked p s ∧ Trigger s1 e = .panicked p s1) ∧
      ∀ n, Event.GetName e = .ok n →
        (∀ w, runAll (s.hooks.index n) e s.world = some w →
          Trigger s e =
            .returned { s with world := w, log := s.log ++ callsOf (s.hooks.index n) e }) ∧
        (∀ pre h post wi p w1, s.hooks.index n = pre ++ h :: post →
          runAll pre e s.world = some wi → h e wi = .panic p w1 →
          Trigger s e =
            .panicked p { s with world := w1, log := s.log ++ callsOf (pre ++ [h]) e }) ∧
        (∀ w, runAll (s.hooks.index n) e s1.world = some w →
          Trigger s1 e =
            .returned { s1 with world := w, log := s1.log ++ callsOf (s.hooks.index n) e }) ∧
        (∀ pre h post wi p w1, s.hooks.index n = pre ++ h :: post →
          runAll pre e s1.world = some wi → h e wi = .panic p w1 →
          Trigger s1 e =
            .panicked p { s1 with world := w1, log := s1.log ++ callsOf (pre ++ [h]) e }) := by
  obtain ⟨s1, hfin1, hhooks1, hmu1⟩ := Trigger_frame s e hmu
  obtain ⟨s2, hfin2, hhooks2, _⟩ := Trigger_frame s1 e hmu1
  have hidx : ∀ n, s1.hooks.index n = s.hooks.index n := by
    intro n
    simp [HookMap.index, hhooks1]
  refine ⟨s1, hfin1, hhooks1, ⟨s2, hfin2, by rw [hhooks2, hhooks1]⟩, ?_, ?_⟩
  · intro p hname
    exact ⟨Trigger_nameless s e p hmu hname, Trigger_nameless s1 e p hmu1 hname⟩
  · intro n hname
    refine ⟨fun w hw => Trigger_index_returns s e n w hmu hname hw,
      fun pre h post wi p w1 hsplit hpre hp =>
        Trigger_index_panics s e n pre h post p wi w1 hmu hname hsplit hpre hp, ?_, ?_⟩
    · intro w hw
      rw [← hidx n] at hw ⊢
      exact Trigger_index_returns s1 e n w hmu1 hname hw
    · intro pre h post wi p w1 hsplit hpre hp
      rw [← hidx n] at hsplit
      exact Trigger_index_panics s1 e n pre h post p wi w1 hmu1 hname hsplit hpre hp

/-- C6, with `failsOnce` and `B` stored under `"X"`: the first `Trigger` ends
with the panic of `failsOnce`, the second calls both handlers and returns, and
the map is the same throughout. -/
theorem C6_trigger_never_mutates_map_witness :
    ∃ s1, (Trigger stateFB evX).final = some s1 ∧ s1.hooks = stateFB.hooks ∧
      (∃ s2, (Trigger s1 evX).final = some s2 ∧ s2.hooks = stateFB.hooks) ∧
      (∀ p, Event.GetName evX = .error p →
        Trigger stateFB evX = .panicked p stateFB ∧ Trigger s1 evX = .panicked p s1) ∧
      ∀ n, Event.GetName evX = .ok n →
        (∀ w, runAll (stateFB.hooks.index n) evX stateFB.world = some w →
          Trigger stateFB evX =
            .returned { stateFB with
              world := w
              log := (stateFB.log ++ callsOf (stateFB.hooks.index n) evX) }) ∧
        (∀ pre h post wi p w1, stateFB.hooks.index n = pre ++ h :: post →
          runAll pre evX stateFB.world = some wi → h evX wi = .panic p w1 →
          Trigger stateFB evX =
            .panicked p { stateFB with
              world := w1
              log := (stateFB.log ++ callsOf (pre ++ [h]) evX) }) ∧
        (∀ w, runAll (stateFB.hooks.index n) evX s1.world = some w →
          Trigger s1 evX =
            .returned { s1 with
              world := w
              log := (s1.log ++ callsOf (stateFB.hooks.index n) evX) }) ∧
        (∀ pre h post wi p w1, stateFB.hooks.index n = pre ++ h :: post →
          runAll pre evX s1.world = some wi → h evX wi = .panic p w1 →
          Trigger s1 evX =
            .panicked p { s1 with world := w1, log := s1.log ++ callsOf (pre ++ [h]) evX }) :=
  C6_trigger_never_mutates_map stateFB evX rfl

/-- C7: after any finite run of client steps (calls of `AddHook`, calls of
`Trigger`, code of the client), the sequence stored under a name `n` is the
sequence stored before with handlers appended, and a key present before is
present after. -/
theorem C7_sequences_only_grow {α σ ε : Type} [Event α ε] (ops : List (Op α σ ε))
    (s : State α σ ε) (n : String) (hmu : s.mu = false) :
    ∃ s1, runOps ops s = some s1 ∧
      (∃ added, s1.hooks.index n = s.hooks.index n ++ added) ∧
      (∀ l, s.hooks n = some l → ∃ added, s1.hooks n = some (l ++ added)) := by
  obtain ⟨s1, hrun, _, hk⟩ := runOps_free ops s hmu
  refine ⟨s1, hrun, ?_, ?_⟩
  · cases hreg : handlersFor n (registrations ops) with
    | nil =>
      refine ⟨[], ?_⟩
      have hkn := hk n
      rw [hreg] at hkn
      simp only [List.isEmpty_nil, if_true] at hkn
      simp [HookMap.index, hkn]
    | cons g gs =>
      refine ⟨g :: gs, ?_⟩
      have hkn := hk n
      rw [hreg] at hkn
      simp only [List.isEmpty_cons, Bool.false_eq_true, if_false] at hkn
      simp [HookMap.index, hkn]
  · intro l hl
    have hkn := hk n
    cases hreg : handlersFor n (registrations ops) with
    | nil =>
      rw [hreg] at hkn
      simp only [List.isEmpty_nil, if_true] at hkn
      exact ⟨[], by rw [hkn, hl, List.append_nil]⟩
    | cons g gs =>
      rw [hreg] at hkn
      simp only [List.isEmpty_cons, Bool.false_eq_true, if_false] at hkn
      exact ⟨g :: gs, by rw [hkn, index_some _ _ l hl]⟩

/-- C7, on a run that registers, triggers a failing handler and registers
again. -/
theorem C7_sequences_only_grow_witness :
    ∃ s1, runOps [Op.addHook "X" (recorder "B"), Op.trigger evX, Op.act (fun w => w ++ ["x"]),
          Op.addHook "Y" (recorder "C"), Op.addHook "X" (recorder "D")]
        { init0 with hooks := init0.hooks.assign "X" [failing "boom"] } = some s1 ∧
      (∃ added, s1.hooks.index "X" =
        (init0.hooks.assign "X" [failing "boom"]).index "X" ++ added) ∧
      (∀ l, init0.hooks.assign "X" [failing "boom"] "X" = some l →
        ∃ added, s1.hooks "X" = some (l ++ added)) :=
  C7_sequences_only_grow _ { init0 with hooks := init0.hooks.assign "X" [failing "boom"] }
    "X" rfl

/-- C8, as stated, fails: after two calls `AddHook("X", failing "boom")` in the
initial state, `Trigger` on the event named `"X"` calls the handler once, not
twice, and ends with its panic. -/
theorem C8_counterexample :
    init0.mu = false ∧ init0.hooks "X" = none ∧ Event.GetName evX = .ok "X" ∧
    ∃ s1, addHooks (List.replicate 2 ("X", failing "boom")) init0 = .returned s1 ∧
      s1.hooks "X" = some (List.replicate 2 (failing "boom")) ∧
      Trigger s1 evX =
        .panicked "boom" { s1 with log := s1.log ++ callsOf [failing "boom"] evX } ∧
      s1.log ++ callsOf [failing "boom"] evX ≠
        s1.log ++ callsOf (List.replicate 2 (failing "boom")) evX := by
  refine ⟨rfl, rfl, rfl, _, rfl, rfl, rfl, ?_⟩
  intro h
  have hlen := congrArg List.length h
  simp [callsOf] at hlen

/-- C8 (amended): `k >= 1` calls `AddHook(n, h)` in a state with no handlers for
`n` store `h` `k` times under `n`.  A `Trigger` on an event named `n` that follows
calls `h` on the event again and again, each call on the world the one before
left: `k` times when every one of these calls returns, and then it returns; and
when the calls before the `(j+1)`-th return and that one panics, exactly `j + 1`
times, and then it ends with that panic.  It calls no other handler, and calls
`h` at least once and at most `k` times. -/
theorem C8_no_deduplication {α σ ε : Type} [Event α ε] (s : State α σ ε) (n : String)
    (h : HookHandler α σ ε) (k : Nat) (e : α)
    (hmu : s.mu = false) (habs : s.hooks n = none) (hk : 1 ≤ k)
    (hname : Event.GetName e = .ok n) :
    ∃ s1, addHooks (List.replicate k (n, h)) s = .returned s1 ∧
      s1.hooks n = some (List.replicate k h) ∧
      (∀ w, runAll (List.replicate k h) e s1.world = some w →
        Trigger s1 e =
          .returned { s1 with world := w, log := s1.log ++ callsOf (List.replicate k h) e }) ∧
      (∀ j wi p w1, j < k → runAll (List.replicate j h) e s1.world = some wi →
        h e wi = .panic p w1 →
        Trigger s1 e =
          .panicked p { s1 with
            world := w1
            log := (s1.log ++ callsOf (List.replicate (j + 1) h) e) }) ∧
      (∃ s2 j, (Trigger s1 e).final = some s2 ∧ 1 ≤ j ∧ j ≤ k ∧
        s2.log = s1.log ++ callsOf (List.replicate j h) e ∧
        (Trigger s1 e = .returned s2 → j = k)) := by
  obtain ⟨s1, hrun, hmu1, _, _, hks⟩ := addHooks_free (List.replicate k (n, h)) s hmu
  have hkn := hks n
  have hne : (List.replicate k h).isEmpty = false := by
    cases k with
    | zero => omega
    | succ k => rfl
  rw [handlersFor_replicate, hne, index_none _ _ habs] at hkn
  simp only [Bool.false_eq_true, if_false, List.nil_append] at hkn
  refine ⟨s1, hrun, hkn, ?_, ?_, ?_⟩
  · intro w hw
    exact Trigger_of_runAll s1 e n _ w hmu1 hname hkn hw
  · intro j wi p w1 hj hpre hp
    have hfound : s1.hooks n =
        some (List.replicate j h ++ h :: List.replicate (k - (j + 1)) h) := by
      rw [hkn, ← replicate_cut k j h hj]
    rw [Trigger_of_panic s1 e n _ h _ p wi w1 hmu1 hname hfound hpre hp, replicate_snoc]
  · rcases Trigger_cases s1 e hmu1 with
      ⟨p, herr, _⟩ | ⟨m, hm, hnone, _⟩ | ⟨m, hs, w, hm, hfound, _, ht⟩ |
      ⟨m, pre, g, post, wi, p, w1, hm, hfound, _, _, ht⟩
    · rw [hname] at herr; cases herr
    · rw [hname] at hm
      injection hm with hm
      subst hm
      rw [hkn] at hnone; cases hnone
    · rw [hname] at hm
      injection hm with hm
      subst hm
      rw [hkn] at hfound
      injection hfound with hhs
      subst hhs
      exact ⟨{ s1 with world := w, log := s1.log ++ callsOf (List.replicate k h) e }, k,
        by rw [ht]; rfl, hk, le_refl k, rfl, fun _ => rfl⟩
    · rw [hname] at hm
      injection hm with hm
      subst hm
      rw [hkn] at hfound
      injection hfound with hhs
      obtain ⟨hrep, hle⟩ := replicate_split k h pre g post hhs
      refine ⟨{ s1 with world := w1, log := s1.log ++ callsOf (pre ++ [g]) e }, pre.length + 1,
        by rw [ht]; rfl, by omega, hle, by rw [hrep], ?_⟩
      intro hret
      rw [ht] at hret
      cases hret

/-- C8, with `recorder "A"` registered three times under the empty name. -/
theorem C8_no_deduplication_witness :
    ∃ s1, addHooks (List.replicate 3 ("", recorder "A")) init0 = .returned s1 ∧
      s1.hooks "" = some (List.replicate 3 (recorder "A")) ∧
      (∀ w, runAll (List.replicate 3 (recorder "A")) (NamedEvent.mk "") s1.world = some w →
        Trigger s1 (NamedEvent.mk "") =
          .returned { s1 with
            world := w
            log := (s1.log ++ callsOf (List.replicate 3 (recorder "A")) (NamedEvent.mk "")) }) ∧
      (∀ j wi p w1, j < 3 →
        runAll (List.replicate j (recorder "A")) (NamedEvent.mk "") s1.world = some wi →
        recorder "A" (NamedEvent.mk "") wi = .panic p w1 →
        Trigger s1 (NamedEvent.mk "") =
          .panicked p { s1 with
            world := w1
            log := (s1.log ++
              callsOf (List.replicate (j + 1) (recorder "A")) (NamedEvent.mk "")) }) ∧
      (∃ s2 j, (Trigger s1 (NamedEvent.mk "")).final = some s2 ∧ 1 ≤ j ∧ j ≤ 3 ∧
        s2.log = s1.log ++ callsOf (List.replicate j (recorder "A")) (NamedEvent.mk "") ∧
        (Trigger s1 (NamedEvent.mk "") = .returned s2 → j = 3)) :=
  C8_no_deduplication init0 "" (recorder "A") 3 (NamedEvent.mk "") rfl rfl (by decide) rfl

/-- C9, as stated, fails.  In the state where `failing "boom"` is registered
under the empty name, `AddHook("", recorder "B")` returns and stores the
handler, but a `Trigger` on the event with the empty name that follows ends with
the panic `"boom"` after the one call of `failing "boom"`: `recorder "B"` is not
called and the journal stays empty.  And a call of `AddHook` made while `mu` is
locked does not return. -/
theorem C9_counterexample :
    (∃ s1,
      AddHook { init0 with hooks := init0.hooks.assign "" [failing "boom"] } "" (recorder "B")
        = .returned s1 ∧
      s1.hooks "" = some [failing "boom", recorder "B"] ∧
      Trigger s1 (NamedEvent.mk "") =
        .panicked "boom" { s1 with
          world := []
          log := (s1.log ++ callsOf [failing "boom"] (NamedEvent.mk "")) } ∧
      ∀ c ∈ s1.log ++ callsOf [failing "boom"] (NamedEvent.mk ""), c.handler ≠ recorder "B") ∧
    AddHook { init0 with mu := true } "" (recorder "B") = .blocked := by
  refine ⟨⟨_, rfl, rfl, rfl, ?_⟩, rfl⟩
  intro c hc heq
  have hc1 : c = Call.mk (failing "boom") (NamedEvent.mk "") true := by
    simpa [init0, init, callsOf] using hc
  rw [hc1] at heq
  have happ := congrFun (congrFun heq (NamedEvent.mk "")) []
  simp [failing, recorder] at happ

/-- C9 (amended): for every state with `mu` unlocked, every name (the empty
string included) and every handler `h`, `AddHook` returns normally with `h`
stored last under the name.  A `Trigger` that follows on an event of that name
calls the handlers registered before under the name and then `h`, on the world
they left, provided each of those returns on the event: it returns with the
world `h` leaves when `h` returns, and ends with the panic of `h` when `h`
panics.  If one of the handlers registered before panics, `Trigger` stops with
that panic after the call of the panicking handler, and `h` is not reached. -/
theorem C9_addHook_never_fails {α σ ε : Type} [Event α ε] (s : State α σ ε) (n : String)
    (h : HookHandler α σ ε) (hmu : s.mu = false) :
    ∃ s1, AddHook s n h = .returned s1 ∧
      s1.hooks n = some (s.hooks.index n ++ [h]) ∧
      ∀ e : α, Event.GetName e = .ok n →
        (∀ wi w, runAll (s.hooks.index n) e s1.world = some wi → h e wi = .ret w →
          Trigger s1 e =
            .returned { s1 with
              world := w
              log := (s1.log ++ callsOf (s.hooks.index n ++ [h]) e) }) ∧
        (∀ wi p w, runAll (s.hooks.index n) e s1.world = some wi → h e wi = .panic p w →
          Trigger s1 e =
            .panicked p { s1 with
              world := w
              log := (s1.log ++ callsOf (s.hooks.index n ++ [h]) e) }) ∧
        (∀ pre g post wi p w1, s.hooks.index n = pre ++ g :: post →
          runAll pre e s1.world = some wi → g e wi = .panic p w1 →
          Trigger s1 e =
            .panicked p { s1 with world := w1, log := s1.log ++ callsOf (pre ++ [g]) e }) := by
  obtain ⟨s1, hs1⟩ : ∃ s1 : State α σ ε,
      s1 = { s with hooks := s.hooks.assign n (s.hooks.index n ++ [h]) } := ⟨_, rfl⟩
  have hmu1 : s1.mu = false := by rw [hs1]; exact hmu
  have hstored : s1.hooks n = some (s.hooks.index n ++ [h]) := by
    rw [hs1]; exact assign_same _ _ _
  refine ⟨s1, by rw [hs1]; exact AddHook_free s n h hmu, hstored, ?_⟩
  intro e hname
  refine ⟨?_, ?_, ?_⟩
  · intro wi w hwi hh
    have hall := runAll_snoc (s.hooks.index n) h e wi w _ hwi hh
    exact Trigger_of_runAll s1 e n _ w hmu1 hname hstored hall
  · intro wi p w hwi hh
    have hfound : s1.hooks n = some (s.hooks.index n ++ h :: []) := hstored
    exact Trigger_of_panic s1 e n _ h [] p wi w hmu1 hname hfound hwi hh
  · intro pre g post wi p w1 hsplit hpre hp
    have hfound : s1.hooks n = some (pre ++ g :: (post ++ [h])) := by
      rw [hstored, hsplit]
      simp
    exact Trigger_of_panic s1 e n pre g (post ++ [h]) p wi w1 hmu1 hname hfound hpre hp

/-- C9, with the empty string as the name, in a state that already has a
handler under it. -/
theorem C9_addHook_never_fails_witness :
    ∃ s1, AddHook { init0 with hooks := init0.hooks.assign "" [recorder "A"] } ""
        (recorder "B") = .returned s1 ∧
      s1.hooks "" = some ((init0.hooks.assign "" [recorder "A"]).index "" ++ [recorder "B"]) ∧
      ∀ e : NamedEvent, Event.GetName e = .ok "" →
        (∀ wi w, runAll ((init0.hooks.assign "" [recorder "A"]).index "") e s1.world = some wi →
          recorder "B" e wi = .ret w →
          Trigger s1 e =
            .returned { s1 with
              world := w
              log := (s1.log ++
                callsOf ((init0.hooks.assign "" [recorder "A"]).index "" ++ [recorder "B"]) e) }) ∧
        (∀ wi p w, runAll ((init0.hooks.assign "" [recorder "A"]).index "") e s1.world = some wi →
          recorder "B" e wi = .panic p w →
          Trigger s1 e =
            .panicked p { s1 with
              world := w
              log := (s1.log ++
                callsOf ((init0.hooks.assign "" [recorder "A"]).index "" ++ [recorder "B"]) e) }) ∧
        (∀ pre g post wi p w1,
          (init0.hooks.assign "" [recorder "A"]).index "" = pre ++ g :: post →
          runAll pre e s1.world = some wi → g e wi = .panic p w1 →
          Trigger s1 e =
            .panicked p { s1 with world := w1, log := s1.log ++ callsOf (pre ++ [g]) e }) :=
  C9_addHook_never_fails { init0 with hooks := init0.hooks.assign "" [recorder "A"] } ""
    (recorder "B") rfl

/-- C10, as stated, fails: two goroutines register `failing "boom"` and
`recorder "B"` under `"X"`, the second waiting in `mu.Lock()` while the first is
inside its call; both calls have completed and both handlers are stored when
`Trigger` starts on the event named `"X"`, yet `Trigger` calls `failing "boom"`
only: no call of `recorder "B"` is made. -/
theorem C10_counterexample :
    (runSchedule [0, 1, 0, 1, 0, 0, 1, 1, 1, 1]
      (spawn init0.hooks [[("X", failing "boom")], [("X", recorder "B")]])).completed = true ∧
    (runSchedule [0, 1, 0, 1, 0, 0, 1, 1, 1, 1]
      (spawn init0.hooks [[("X", failing "boom")], [("X", recorder "B")]])).hooks "X"
      = some [failing "boom", recorder "B"] ∧
    ∃ s2, (Trigger ((runSchedule [0, 1, 0, 1, 0, 0, 1, 1, 1, 1]
        (spawn init0.hooks [[("X", failing "boom")], [("X", recorder "B")]])).toState [] [])
        evX).final = some s2 ∧
      s2.log = callsOf [failing "boom"] evX ∧
      ∀ c ∈ s2.log, c.handler ≠ recorder "B" := by
  refine ⟨rfl, rfl, _, rfl, rfl, ?_⟩
  intro c hc heq
  have hc1 : c = Call.mk (failing "boom") evX true := by
    simpa [System.toState, callsOf] using hc
  rw [hc1] at heq
  have happ := congrFun (congrFun heq evX) []
  simp [failing, recorder] at happ

/-- C10 (amended): goroutines make calls of `AddHook`, for any names, under any
schedule.  Once all the calls have completed, `mu` is unlocked and the sequence
stored under every name holds the handlers stored at the start and every
handler registered under that name by any goroutine, each as many times as it
was registered: none is lost.  A `Trigger` that starts then calls all the
handlers stored under the name of its event, in stored order, provided each of
them returns; if one of them panics, it calls the handlers up to and including
the first one that panics. -/
theorem C10_no_registration_lost {α σ ε : Type} [Event α ε] (hooks : HookMap α σ ε)
    (progs : List (List (String × HookHandler α σ ε))) (sched : List Nat)
    (w : σ) (log : List (Call α σ ε)) (e : α) (n : String)
    (hname : Event.GetName e = .ok n)
    (hdone : (runSchedule sched (spawn hooks progs)).completed = true) :
    (runSchedule sched (spawn hooks progs)).mu = false ∧
    (∀ k, ((runSchedule sched (spawn hooks progs)).hooks.index k).Perm
      (hooks.index k ++ registered k progs)) ∧
    (∀ h ∈ registered n progs,
      h ∈ (runSchedule sched (spawn hooks progs)).hooks.index n) ∧
    (∀ w1, runAll ((runSchedule sched (spawn hooks progs)).hooks.index n) e w
        = some w1 →
      Trigger ((runSchedule sched (spawn hooks progs)).toState w log) e =
        .returned { (runSchedule sched (spawn hooks progs)).toState w log with
          world := w1,
          log := (log ++ callsOf
            ((runSchedule sched (spawn hooks progs)).hooks.index n) e) }) ∧
    (∀ pre h post wi p w1,
      (runSchedule sched (spawn hooks progs)).hooks.index n = pre ++ h :: post →
      runAll pre e w = some wi → h e wi = .panic p w1 →
      Trigger ((runSchedule sched (spawn hooks progs)).toState w log) e =
        .panicked p { (runSchedule sched (spawn hooks progs)).toState w log with
          world := w1, log := (log ++ callsOf (pre ++ [h]) e) }) := by
  obtain ⟨hex0, hcons0⟩ := spawn_inv hooks progs
  obtain ⟨hex, hcons⟩ := runSchedule_inv _ sched (spawn hooks progs) hex0 hcons0
  obtain ⟨hmu, hpend⟩ := completed_rest _ hex hdone
  have hperm : ∀ k, ((runSchedule sched (spawn hooks progs)).hooks.index k).Perm
      (hooks.index k ++ registered k progs) := by
    intro k
    have hk := hcons k
    rw [hpend k, List.append_nil] at hk
    exact hk
  generalize runSchedule sched (spawn hooks progs) = sys at hmu hperm ⊢
  have hmu1 : (sys.toState w log).mu = false := hmu
  refine ⟨hmu, hperm, ?_, ?_, ?_⟩
  · intro h hh
    exact (hperm _).symm.subset (List.mem_append_right _ hh)
  · intro w1 hw1
    exact Trigger_index_returns (sys.toState w log) e n w1 hmu1 hname hw1
  · intro pre h post wi p w1 hsplit hpre hp
    exact Trigger_index_panics (sys.toState w log) e n pre h post p wi w1 hmu1 hname
      hsplit hpre hp

/-- C10, on two goroutines whose calls interleave: the second waits in
`mu.Lock()` while the first is inside its call. -/
theorem C10_no_registration_lost_witness :
    (runSchedule sched2 (spawn init0.hooks progs2)).completed = true ∧
    (runSchedule sched2 (spawn init0.hooks progs2)).mu = false ∧
    (∀ k, ((runSchedule sched2 (spawn init0.hooks progs2)).hooks.index k).Perm
      (init0.hooks.index k ++ registered k progs2)) ∧
    (∀ h ∈ registered "X" progs2,
      h ∈ (runSchedule sched2 (spawn init0.hooks progs2)).hooks.index "X") :=
  ⟨rfl, (C10_no_registration_lost init0.hooks progs2 sched2 [] [] evX "X" rfl rfl).1,
    (C10_no_registration_lost init0.hooks progs2 sched2 [] [] evX "X" rfl rfl).2.1,
    (C10_no_registration_lost init0.hooks progs2 sched2 [] [] evX "X" rfl rfl).2.2.1⟩

/-- C11: with `mu` unlocked before the call.  `AddHook` takes `mu` as its first
step, holds it while it evaluates `append` and while it assigns to the map, and
releases it as its last step; the call returns with `mu` unlocked.  `Trigger`
ends, by a normal return or by a panic (of a handler, or of `event.GetName()`),
with `mu` unlocked, and every handler call it has made was made with `mu` locked.  Neither gets past
`mu.Lock()` while `mu` is locked. -/
theorem C11_lock_discipline {α σ ε : Type} [Event α ε] (s : State α σ ε) (n : String)
    (h : HookHandler α σ ε) (e : α) (hmu : s.mu = false) :
    ((runSchedule [0] (spawn s.hooks [[(n, h)]])).mu = true ∧
      (runSchedule [0, 0] (spawn s.hooks [[(n, h)]])).mu = true ∧
      (runSchedule [0, 0, 0] (spawn s.hooks [[(n, h)]])).mu = true ∧
      (runSchedule [0, 0, 0] (spawn s.hooks [[(n, h)]])).hooks
        = s.hooks.assign n (s.hooks.index n ++ [h]) ∧
      (runSchedule [0, 0, 0, 0] (spawn s.hooks [[(n, h)]])).mu = false ∧
      ∃ s1, AddHook s n h = .returned s1 ∧ s1.mu = false ∧
        s1.hooks = (runSchedule [0, 0, 0, 0] (spawn s.hooks [[(n, h)]])).hooks) ∧
    (∃ s1 calls, (Trigger s e).final = some s1 ∧ s1.mu = false ∧ s1.log = s.log ++ calls ∧
      ∀ c ∈ calls, c.locked = true) ∧
    (∀ p s1, Trigger s e = .panicked p s1 → s1.mu = false) ∧
    (AddHook { s with mu := true } n h = .blocked ∧
      Trigger { s with mu := true } e = .blocked) := by
  refine ⟨?_, ?_, ?_, blocked_of_locked { s with mu := true } n h e rfl⟩
  · refine ⟨?_, ?_, ?_, ?_, ?_, _, AddHook_free s n h hmu, hmu, ?_⟩ <;>
      simp [runSchedule, spawn, System.step, Goroutine.step, Lock, Unlock]
  · obtain ⟨s1, invoked, hfin, _, hmu1, hlog, _⟩ := Trigger_log s e hmu
    refine ⟨s1, callsOf invoked e, hfin, hmu1, hlog, ?_⟩
    intro c hc
    simp only [callsOf, List.mem_map] at hc
    obtain ⟨g, _, hg⟩ := hc
    rw [← hg]
  · intro p s1 hp
    obtain ⟨s2, _, hfin, _, hmu2, _, _⟩ := Trigger_log s e hmu
    rw [hp] at hfin
    simp only [Outcome.final, Option.some.injEq] at hfin
    rw [hfin]
    exact hmu2

/-- C11, on an exit by panic: `failing "boom"` and `B` are stored under `"X"`,
and `Trigger` on the event named `"X"` ends with the panic. -/
theorem C11_lock_discipline_witness :
    (∃ s1, Trigger { init0 with hooks := init0.hooks.assign "X" [failing "boom", recorder "B"] }
        evX = .panicked "boom" s1) ∧
    (∃ s1 calls,
      (Trigger { init0 with hooks := init0.hooks.assign "X" [failing "boom", recorder "B"] }
        evX).final = some s1 ∧
      s1.mu = false ∧ s1.log = init0.log ++ calls ∧ ∀ c ∈ calls, c.locked = true) ∧
    (∀ p s1, Trigger { init0 with hooks := init0.hooks.assign "X" [failing "boom", recorder "B"] }
        evX = .panicked p s1 → s1.mu = false) :=
  ⟨⟨_, rfl⟩,
    (C11_lock_discipline
      { init0 with hooks := init0.hooks.assign "X" [failing "boom", recorder "B"] }
      "X" (recorder "C") evX rfl).2.1,
    (C11_lock_discipline
      { init0 with hooks := init0.hooks.assign "X" [failing "boom", recorder "B"] }
      "X" (recorder "C") evX rfl).2.2.1⟩

/-- C12, as stated, fails in its last words: with `recorder "A"` stored under
`"Y"`, the call `AddHook("X", recorder "A")` leaves the sequence under `"Y"` as
it was, and `Trigger` on the event named `"Y"` after the call invokes what it
would have invoked before the call, which is `recorder "A"`: the handler just
registered under `"X"` is invoked. -/
theorem C12_counterexample :
    ∃ s1 s2,
      AddHook { init0 with hooks := init0.hooks.assign "Y" [recorder "A"] } "X" (recorder "A")
        = .returned s1 ∧
      s1.hooks "Y" = some [recorder "A"] ∧
      (Trigger s1 evY).final = some s2 ∧
      s2.log = s1.log ++ [Call.mk (recorder "A") evY true] ∧
      ∃ c ∈ s2.log, c.handler = recorder "A" := by
  refine ⟨_, _, rfl, rfl, rfl, rfl, Call.mk (recorder "A") evY true, ?_, rfl⟩
  simp [init0, init]

/-- C12 (amended): for distinct names `n` and `m`, the call `AddHook(n, h)`
leaves what is stored under `m` as it was (the sequence, and whether `m` is a
key at all), and `Trigger` on an event named `m` ends after the call exactly as
it would have ended before it: same handler calls in the same order, same
world, same return or panic.  Every handler it calls is one stored under `m`
before the call of `AddHook`, so `h` is called only if it was stored under `m`
already. -/
theorem C12_names_are_isolated {α σ ε : Type} [Event α ε] (s : State α σ ε) (n m : String)
    (h : HookHandler α σ ε) (hmu : s.mu = false) (hne : n ≠ m) :
    ∃ s1, AddHook s n h = .returned s1 ∧ s1.hooks m = s.hooks m ∧
      ∀ e : α, Event.GetName e = .ok m →
        Trigger s1 e = (Trigger s e).withHooks s1.hooks ∧
        ∃ s2 calls, (Trigger s1 e).final = some s2 ∧ s2.log = s1.log ++ calls ∧
          (∀ c ∈ calls, c.handler ∈ s.hooks.index m) ∧
          (h ∉ s.hooks.index m → ∀ c ∈ calls, c.handler ≠ h) := by
  have hmn : m ≠ n := fun heq => hne heq.symm
  obtain ⟨s1, hs1⟩ : ∃ s1 : State α σ ε,
      s1 = { s with hooks := s.hooks.assign n (s.hooks.index n ++ [h]) } := ⟨_, rfl⟩
  have hmu1 : s1.mu = false := by rw [hs1]; exact hmu
  have hkeep : s1.hooks m = s.hooks m := by
    rw [hs1]; exact assign_other _ _ _ _ hmn
  refine ⟨s1, by rw [hs1]; exact AddHook_free s n h hmu, hkeep, ?_⟩
  intro e hname
  have hcalls : ∃ s2 calls, (Trigger s1 e).final = some s2 ∧ s2.log = s1.log ++ calls ∧
      ∀ c ∈ calls, c.handler ∈ s.hooks.index m := by
    obtain ⟨s2, invoked, hfin, _, _, hlog, hrest⟩ := Trigger_log s1 e hmu1
    obtain ⟨rest, hsplit, _⟩ := hrest m hname
    refine ⟨s2, callsOf invoked e, hfin, hlog, ?_⟩
    intro c hc
    simp only [callsOf, List.mem_map] at hc
    obtain ⟨g, hg, hcg⟩ := hc
    rw [← hcg]
    have hidx : s.hooks.index m = invoked ++ rest := by
      rw [← hsplit]
      simp [HookMap.index, hkeep]
    rw [hidx]
    exact List.mem_append_left _ hg
  obtain ⟨s2, calls, hfin, hlog, hmem⟩ := hcalls
  refine ⟨?_, s2, calls, hfin, hlog, hmem, ?_⟩
  · rw [hs1]
    refine Trigger_congr s _ e hmu ?_
    intro k hk
    rw [hname] at hk
    injection hk with hk
    subst hk
    exact assign_other _ _ _ _ hmn
  · intro hnot c hc heq
    exact hnot (heq ▸ hmem c hc)

/-- C12, with `failing "boom"` and `B` stored under `"Y"` and a registration
under `"X"`. -/
theorem C12_names_are_isolated_witness :
    ∃ s1, AddHook { init0 with hooks := init0.hooks.assign "Y" [failing "boom", recorder "B"] }
        "X" (recorder "A") = .returned s1 ∧
      s1.hooks "Y" = (init0.hooks.assign "Y" [failing "boom", recorder "B"]) "Y" ∧
      ∀ e : NamedEvent, Event.GetName e = .ok "Y" →
        Trigger s1 e =
          (Trigger { init0 with hooks := init0.hooks.assign "Y" [failing "boom", recorder "B"] }
            e).withHooks s1.hooks ∧
        ∃ s2 calls, (Trigger s1 e).final = some s2 ∧ s2.log = s1.log ++ calls ∧
          (∀ c ∈ calls,
            c.handler ∈ (init0.hooks.assign "Y" [failing "boom", recorder "B"]).index "Y") ∧
          (recorder "A" ∉ (init0.hooks.assign "Y" [failing "boom", recorder "B"]).index "Y" →
            ∀ c ∈ calls, c.handler ≠ recorder "A") :=
  C12_names_are_isolated
    { init0 with hooks := init0.hooks.assign "Y" [failing "boom", recorder "B"] }
    "X" "Y" (recorder "A") rfl (by decide)

/-- C13: in every state reached from the initial empty map by calls of `AddHook`
and `Trigger` (and client code), a name that is a key of the map has a
non-empty sequence, and the sequence under a name is the list of the handlers
registered under it.  For `Trigger(e)` called in such a state, with `n` the name
of `e`: the key `n` is found if and only if `AddHook` was called before with
`n`.  When it is not found, `Trigger` returns with nothing changed and no
handler called.  When it is found, `Trigger` calls the first stored handler on
`e` and goes on as long as the handlers return: it ends with the world the
called handlers leave, by a return when all return and by the panic of the
first one that panics.  So it calls at least one handler if and only if the key
is found. -/
theorem C13_found_iff_handler_invoked {α σ ε : Type} [Event α ε] (ops : List (Op α σ ε))
    (w0 : σ) (e : α) (n : String) (hname : Event.GetName e = .ok n) :
    ∃ s, runOps ops (init w0) = some s ∧
      (∀ k l, s.hooks k = some l → l ≠ []) ∧
      s.hooks.index n = handlersFor n (registrations ops) ∧
      ((s.hooks n).isSome = true ↔ ∃ h, Op.addHook n h ∈ ops) ∧
      (s.hooks n = none → Trigger s e = .returned s) ∧
      (∀ g gs, s.hooks n = some (g :: gs) →
        (∀ p w1, g e s.world = .panic p w1 →
          Trigger s e =
            .panicked p { s with world := w1, log := s.log ++ [Call.mk g e true] }) ∧
        (∀ w, runAll (g :: gs) e s.world = some w →
          Trigger s e =
            .returned { s with world := w, log := s.log ++ callsOf (g :: gs) e }) ∧
        (∀ pre h post wi p w1, g :: gs = pre ++ h :: post →
          runAll pre e s.world = some wi → h e wi = .panic p w1 →
          Trigger s e =
            .panicked p { s with world := w1, log := s.log ++ callsOf (pre ++ [h]) e })) ∧
      ∃ s2 calls, (Trigger s e).final = some s2 ∧ s2.log = s.log ++ calls ∧
        ((s.hooks n).isSome = true ↔ calls ≠ []) ∧
        (calls ≠ [] ↔ ∃ h, Op.addHook n h ∈ ops) := by
  obtain ⟨s, hrun, hmu, hk⟩ := runOps_init ops w0 (α := α) (ε := ε)
  have hnonempty : ∀ k l, s.hooks k = some l → l ≠ [] := by
    intro k l hl
    rw [hk k] at hl
    cases hreg : handlersFor k (registrations ops) with
    | nil => rw [hreg] at hl; simp at hl
    | cons g gs =>
      rw [hreg] at hl
      simp only [List.isEmpty_cons, Bool.false_eq_true, if_false, Option.some.injEq] at hl
      rw [← hl]
      exact List.cons_ne_nil _ _
  have hidx : s.hooks.index n = handlersFor n (registrations ops) := by
    cases hreg : handlersFor n (registrations ops) with
    | nil => simp [HookMap.index, hk n, hreg]
    | cons g gs => simp [HookMap.index, hk n, hreg]
  have hkey : (s.hooks n).isSome = true ↔ ∃ h, Op.addHook n h ∈ ops := by
    rw [← handlersFor_registrations_ne_nil_iff, hk n]
    cases hreg : handlersFor n (registrations ops) with
    | nil => simp
    | cons g gs => simp
  refine ⟨s, hrun, hnonempty, hidx, hkey, ?_, ?_, ?_⟩
  · intro hnone
    exact Trigger_absent s e n hmu hname hnone
  · intro g gs hfound
    refine ⟨?_, ?_, ?_⟩
    · intro p w1 hp
      rw [Trigger_of_panic s e n [] g gs p s.world w1 hmu hname hfound rfl hp]
      rfl
    · intro w hw
      exact Trigger_of_runAll s e n (g :: gs) w hmu hname hfound hw
    · intro pre h post wi p w1 hsplit hpre hp
      rw [hsplit] at hfound
      exact Trigger_of_panic s e n pre h post p wi w1 hmu hname hfound hpre hp
  · rcases Trigger_cases s e hmu with
      ⟨p, herr, _⟩ | ⟨m, hm, hnone, ht⟩ | ⟨m, hs, w, hm, hfound, _, ht⟩ |
      ⟨m, pre, h, post, wi, p, w1, hm, hfound, _, _, ht⟩
    · rw [hname] at herr; cases herr
    · rw [hname] at hm
      injection hm with hm
      subst hm
      refine ⟨s, [], by rw [ht]; rfl, by simp, ?_, ?_⟩
      · simp [hnone]
      · rw [← hkey, hnone]; simp
    · rw [hname] at hm
      injection hm with hm
      subst hm
      have hne : hs ≠ [] := hnonempty _ hs hfound
      have hcalls : callsOf hs e ≠ [] := by
        cases hs with
        | nil => exact absurd rfl hne
        | cons g gs => simp [callsOf]
      refine ⟨{ s with world := w, log := s.log ++ callsOf hs e }, callsOf hs e,
        by rw [ht]; rfl, rfl, ?_, ?_⟩
      · simp [hfound, hcalls]
      · rw [← hkey, hfound]; simp [hcalls]
    · rw [hname] at hm
      injection hm with hm
      subst hm
      have hcalls : callsOf (pre ++ [h]) e ≠ [] := by simp [callsOf]
      refine ⟨{ s with world := w1, log := s.log ++ callsOf (pre ++ [h]) e },
        callsOf (pre ++ [h]) e, by rw [ht]; rfl, rfl, ?_, ?_⟩
      · simp [hfound, hcalls]
      · rw [← hkey, hfound]; simp [hcalls]

/-- C13, on the run `stepsAB` followed by `Trigger` on the event named `"X"`. -/
theorem C13_found_iff_handler_invoked_witness :
    ∃ s, runOps stepsAB (init []) = some s ∧
      (∀ k l, s.hooks k = some l → l ≠ []) ∧
      s.hooks.index "X" = handlersFor "X" (registrations stepsAB) ∧
      ((s.hooks "X").isSome = true ↔ ∃ h, Op.addHook "X" h ∈ stepsAB) ∧
      (s.hooks "X" = none → Trigger s evX = .returned s) ∧
      (∀ g gs, s.hooks "X" = some (g :: gs) →
        (∀ p w1, g evX s.world = .panic p w1 →
          Trigger s evX =
            .panicked p { s with world := w1, log := s.log ++ [Call.mk g evX true] }) ∧
        (∀ w, runAll (g :: gs) evX s.world = some w →
          Trigger s evX =
            .returned { s with world := w, log := s.log ++ callsOf (g :: gs) evX }) ∧
        (∀ pre h post wi p w1, g :: gs = pre ++ h :: post →
          runAll pre evX s.world = some wi → h evX wi = .panic p w1 →
          Trigger s evX =
            .panicked p { s with world := w1, log := s.log ++ callsOf (pre ++ [h]) evX })) ∧
      ∃ s2 calls, (Trigger s evX).final = some s2 ∧ s2.log = s.log ++ calls ∧
        ((s.hooks "X").isSome = true ↔ calls ≠ []) ∧
        (calls ≠ [] ↔ ∃ h, Op.addHook "X" h ∈ stepsAB) :=
  C13_found_iff_handler_invoked stepsAB [] evX "X" rfl

/-- C14: for `n` different from `m`, the calls `AddHook(n, h1)` then
`AddHook(m, h2)` end in the same state as `AddHook(m, h2)` then `AddHook(n, h1)`.
For one name `n`, `AddHook(n, h1)` then `AddHook(n, h2)` stores the old sequence
followed by `h1, h2`, the other order stores it followed by `h2, h1`, and the two
maps agree at every other name. -/
theorem C14_registrations_commute {α σ ε : Type} (s : State α σ ε) (n m : String)
    (h1 h2 : HookHandler α σ ε) (hmu : s.mu = false) :
    (n ≠ m → ∃ s2, addHooks [(n, h1), (m, h2)] s = .returned s2 ∧
      addHooks [(m, h2), (n, h1)] s = .returned s2) ∧
    (∃ sa sb, addHooks [(n, h1), (n, h2)] s = .returned sa ∧
      addHooks [(n, h2), (n, h1)] s = .returned sb ∧
      sa.hooks n = some (s.hooks.index n ++ [h1, h2]) ∧
      sb.hooks n = some (s.hooks.index n ++ [h2, h1]) ∧
      (∀ k, k ≠ n → sa.hooks k = sb.hooks k) ∧
      sa.mu = sb.mu ∧ sa.world = sb.world ∧ sa.log = sb.log) := by
  constructor
  · intro hne
    have hmn : m ≠ n := fun h => hne h.symm
    refine ⟨_, addHooks_pair s n m h1 h2 hmu, ?_⟩
    rw [addHooks_pair s m n h2 h1 hmu, index_assign_other _ _ _ _ hmn,
      index_assign_other _ _ _ _ hne, assign_comm _ n m _ _ hne]
  · refine ⟨_, _, addHooks_pair s n n h1 h2 hmu, addHooks_pair s n n h2 h1 hmu, ?_, ?_, ?_,
      rfl, rfl, rfl⟩
    · simp [HookMap.assign, HookMap.index]
    · simp [HookMap.assign, HookMap.index]
    · intro k hk
      simp [HookMap.assign, hk]

/-- C14, with `"X"` and `"Y"` in a state that already has a handler under
`"X"`. -/
theorem C14_registrations_commute_witness :
    ("X" ≠ "Y" → ∃ s2,
      addHooks [("X", recorder "A"), ("Y", recorder "B")]
        { init0 with hooks := init0.hooks.assign "X" [failing "boom"] } = .returned s2 ∧
      addHooks [("Y", recorder "B"), ("X", recorder "A")]
        { init0 with hooks := init0.hooks.assign "X" [failing "boom"] } = .returned s2) ∧
    (∃ sa sb,
      addHooks [("X", recorder "A"), ("X", recorder "B")]
        { init0 with hooks := init0.hooks.assign "X" [failing "boom"] } = .returned sa ∧
      addHooks [("X", recorder "B"), ("X", recorder "A")]
        { init0 with hooks := init0.hooks.assign "X" [failing "boom"] } = .returned sb ∧
      sa.hooks "X" = some ((init0.hooks.assign "X" [failing "boom"]).index "X"
        ++ [recorder "A", recorder "B"]) ∧
      sb.hooks "X" = some ((init0.hooks.assign "X" [failing "boom"]).index "X"
        ++ [recorder "B", recorder "A"]) ∧
      (∀ k, k ≠ "X" → sa.hooks k = sb.hooks k) ∧
      sa.mu = sb.mu ∧ sa.world = sb.world ∧ sa.log = sb.log) :=
  C14_registrations_commute { init0 with hooks := init0.hooks.assign "X" [failing "boom"] }
    "X" "Y" (recorder "A") (recorder "B") rfl

end Claims

end Hooks
